import Mathlib

/-!
Verification development for the dnd-srd-mongo ingest pipeline
(`scripts/ingest_srd.py`) and read API (`app/routes.py`,
`scripts/read_helpers.py`).

The document store is shallowly embedded: a collection is a list of
documents, a document is an association list of field name to BSON-like
value (first occurrence wins, matching dict/BSON lookup semantics).
MongoDB `UpdateOne(filter, {"$set": doc}, upsert=True)` is embedded as
"update the first document matching the filter by setting the given
top-level fields, else insert"; `bulk_write` of upserts is a left fold.
-/

namespace SrdMongo

/-- BSON-like values stored in documents (strings, integers, null,
arrays, subdocuments). Mirrors the JSON subset the ingest script
actually writes. -/
inductive Val where
  | null : Val
  | str : String → Val
  | num : Int → Val
  | arr : List Val → Val
  | obj : List (String × Val) → Val
deriving Repr

mutual

def Val.decEq : (a b : Val) → Decidable (a = b)
  | .null, .null => .isTrue rfl
  | .str s, .str t =>
    if h : s = t then .isTrue (by rw [h]) else .isFalse (by simp [h])
  | .num s, .num t =>
    if h : s = t then .isTrue (by rw [h]) else .isFalse (by simp [h])
  | .arr s, .arr t =>
    match Val.decEqList s t with
    | .isTrue h => .isTrue (by rw [h])
    | .isFalse h => .isFalse (by simp [h])
  | .obj s, .obj t =>
    match Val.decEqPairs s t with
    | .isTrue h => .isTrue (by rw [h])
    | .isFalse h => .isFalse (by simp [h])
  | .null, .str _ => .isFalse (fun h => nomatch h)
  | .null, .num _ => .isFalse (fun h => nomatch h)
  | .null, .arr _ => .isFalse (fun h => nomatch h)
  | .null, .obj _ => .isFalse (fun h => nomatch h)
  | .str _, .null => .isFalse (fun h => nomatch h)
  | .str _, .num _ => .isFalse (fun h => nomatch h)
  | .str _, .arr _ => .isFalse (fun h => nomatch h)
  | .str _, .obj _ => .isFalse (fun h => nomatch h)
  | .num _, .null => .isFalse (fun h => nomatch h)
  | .num _, .str _ => .isFalse (fun h => nomatch h)
  | .num _, .arr _ => .isFalse (fun h => nomatch h)
  | .num _, .obj _ => .isFalse (fun h => nomatch h)
  | .arr _, .null => .isFalse (fun h => nomatch h)
  | .arr _, .str _ => .isFalse (fun h => nomatch h)
  | .arr _, .num _ => .isFalse (fun h => nomatch h)
  | .arr _, .obj _ => .isFalse (fun h => nomatch h)
  | .obj _, .null => .isFalse (fun h => nomatch h)
  | .obj _, .str _ => .isFalse (fun h => nomatch h)
  | .obj _, .num _ => .isFalse (fun h => nomatch h)
  | .obj _, .arr _ => .isFalse (fun h => nomatch h)

def Val.decEqList : (a b : List Val) → Decidable (a = b)
  | [], [] => .isTrue rfl
  | [], _ :: _ => .isFalse (fun h => nomatch h)
  | _ :: _, [] => .isFalse (fun h => nomatch h)
  | x :: xs, y :: ys =>
    match Val.decEq x y with
    | .isFalse h => .isFalse (by simp [h])
    | .isTrue h =>
      match Val.decEqList xs ys with
      | .isTrue h2 => .isTrue (by rw [h, h2])
      | .isFalse h2 => .isFalse (by simp [h2])

def Val.decEqPairs : (a b : List (String × Val)) → Decidable (a = b)
  | [], [] => .isTrue rfl
  | [], _ :: _ => .isFalse (fun h => nomatch h)
  | _ :: _, [] => .isFalse (fun h => nomatch h)
  | (k, x) :: xs, (k2, y) :: ys =>
    if hk : k = k2 then
      match Val.decEq x y with
      | .isFalse h => .isFalse (by simp [h])
      | .isTrue h =>
        match Val.decEqPairs xs ys with
        | .isTrue h2 => .isTrue (by rw [hk, h, h2])
        | .isFalse h2 => .isFalse (by simp [h2])
    else .isFalse (by simp [hk])

end

instance : DecidableEq Val := Val.decEq

/-- A stored document: ordered association list of top-level fields.
Lookup takes the first occurrence, matching dict semantics. -/
abbrev Doc := List (String × Val)

/-- Field lookup in a document (Python `d[k]` / Mongo field access). -/
def getField (d : Doc) (k : String) : Option Val :=
  List.lookup k d

/-- Mongo `$set` with top-level field names: every field of `d`
overwrites the corresponding field of `m`; fields of `m` not named in
`d` are kept. (`UpdateOne(filter, {"$set": d})` applied to stored
document `m`.) -/
def setFields (d m : Doc) : Doc :=
  d ++ m.filter (fun kv => (getField d kv.1).isNone)

theorem getField_append (a b : Doc) (k : String) :
    getField (a ++ b) k = (getField a k).or (getField b k) := by
  induction a with
  | nil => simp [getField]
  | cons kv t ih =>
    by_cases h : kv.1 = k
    · simp [getField, List.lookup, h]
    · simp only [getField, List.lookup, List.cons_append] at *
      have h' : (k == kv.1) = false := by
        simp [BEq.beq]; exact fun e => h e.symm
      simp [h', ih]

theorem getField_filter_ne_none (m : Doc) (p : String × Val → Bool) (k : String)
    (h : ∀ v, p (k, v) = true) :
    getField (m.filter p) k = getField m k := by
  induction m with
  | nil => rfl
  | cons kv t ih =>
    by_cases hk : kv.1 = k
    · have : p kv = true := by
        have := h kv.2; rwa [← hk] at this
      simp [getField, List.lookup, List.filter, this, hk]
    · have hbeq : (k == kv.1) = false := by
        simp [BEq.beq]; exact fun e => hk e.symm
      cases hp : p kv with
      | true => simp [getField, List.lookup, List.filter, hp, hbeq] at *; exact ih
      | false => simp [getField, List.lookup, List.filter, hp, hbeq] at *; exact ih

/-- Reading a field of `$set d` applied to `m`: the field comes from `d`
if `d` names it, else from `m`. -/
theorem getField_setFields (d m : Doc) (k : String) :
    getField (setFields d m) k = (getField d k).or (getField m k) := by
  unfold setFields
  rw [getField_append]
  cases hd : getField d k with
  | some v => simp
  | none =>
    simp only [Option.or]
    rw [getField_filter_ne_none]
    intro v
    simp [hd]

/-! ## Slug derivation (`slugify` in scripts/ingest_srd.py)

The Python code lowercases (`text.lower()`), replaces every maximal run
of characters outside `[a-z0-9]` with one hyphen
(`re.sub(r"[^a-z0-9]+", "-", t)`), collapses hyphen runs
(`re.sub(r"-+", "-", t)`) and strips leading/trailing hyphens
(`.strip("-")`). We embed strings as lists of characters; each regex
substitution is embedded as a one-pass scan whose boolean state records
whether the scanner is inside a run being replaced. `Char.toLower`
lowercases exactly the ASCII letters, which agrees with Python
`str.lower` on ASCII input (non-ASCII characters fall outside
`[a-z0-9]` and are replaced by hyphens in either reading). -/

def isSlugChar (c : Char) : Bool :=
  (decide ('a' ≤ c) && decide (c ≤ 'z')) || (decide ('0' ≤ c) && decide (c ≤ '9'))

/-- `re.sub(r"[^a-z0-9]+", "-", ·)`: replace each maximal run of
non-`[a-z0-9]` characters with a single hyphen. The flag is true while
inside such a run (the hyphen for the run has been emitted). -/
def subRunsGo : Bool → List Char → List Char
  | _, [] => []
  | inRun, c :: rest =>
    if isSlugChar c then c :: subRunsGo false rest
    else if inRun then subRunsGo true rest
    else '-' :: subRunsGo true rest

def subRuns (l : List Char) : List Char := subRunsGo false l

/-- `re.sub(r"-+", "-", ·)`: replace each maximal run of hyphens with a
single hyphen. -/
def subDashesGo : Bool → List Char → List Char
  | _, [] => []
  | inRun, c :: rest =>
    if c = '-' then
      if inRun then subDashesGo true rest else '-' :: subDashesGo true rest
    else c :: subDashesGo false rest

def subDashes (l : List Char) : List Char := subDashesGo false l

/-- `.strip("-")`: drop hyphens from both ends. -/
def stripDashes (l : List Char) : List Char :=
  ((l.dropWhile (fun c => c = '-')).reverse.dropWhile (fun c => c = '-')).reverse

/-- `slugify` from scripts/ingest_srd.py lines 62-76: lowercase, replace
non-`[a-z0-9]` runs with hyphens, collapse hyphen runs, strip hyphens. -/
def slugify (s : String) : String :=
  ⟨stripDashes (subDashes (subRuns (s.data.map Char.toLower)))⟩

/-- Modelled from the spec words (section 4.2 Slug Deriver): "lowercase,
ASCII-fold, replace every maximal run of non `[a-z0-9]` characters with
a single hyphen, strip leading/trailing hyphens". On the ASCII domain of
this embedding the ASCII-fold is the identity. Stated for comparison
with `slugify` above, which follows the code. -/
def slugify_spec_alg (s : String) : String :=
  ⟨stripDashes (subRuns (s.data.map Char.toLower))⟩

theorem subDashesGo_subRunsGo (l : List Char) :
    ∀ b : Bool, subDashesGo b (subRunsGo b l) = subRunsGo b l := by
  induction l with
  | nil => intro b; rfl
  | cons c rest ih =>
    intro b
    by_cases hc : isSlugChar c
    · have hnd : ¬(c = '-') := by
        intro h; subst h; simp [isSlugChar] at hc
      have h1 : subRunsGo b (c :: rest) = c :: subRunsGo false rest := by
        simp [subRunsGo, hc]
      have h2 : subDashesGo b (c :: subRunsGo false rest)
          = c :: subDashesGo false (subRunsGo false rest) := by
        simp [subDashesGo, hnd]
      rw [h1, h2, ih false]
    · cases b with
      | true =>
        have h1 : subRunsGo true (c :: rest) = subRunsGo true rest := by
          simp [subRunsGo, hc]
        rw [h1]; exact ih true
      | false =>
        have h1 : subRunsGo false (c :: rest) = '-' :: subRunsGo true rest := by
          simp [subRunsGo, hc]
        have h2 : subDashesGo false ('-' :: subRunsGo true rest)
            = '-' :: subDashesGo true (subRunsGo true rest) := by
          simp [subDashesGo]
        rw [h1, h2, ih true]

/-- The hyphen-collapsing second pass of `slugify` is a no-op after the
first pass (the first pass never emits two adjacent hyphens), so the
code computes exactly the algorithm the spec states. -/
theorem subDashes_subRuns (l : List Char) : subDashes (subRuns l) = subRuns l :=
  subDashesGo_subRunsGo l false

/-! ## Upsert operations

`UpdateOne(filter, {"$set": doc}, upsert=True)` with an equality filter
on key fields, as issued by `upsert_classes_and_features`: update the
first matching document in place, else insert a document made of the
filter's equality fields overwritten by the `$set` fields (MongoDB
upsert-insert semantics). `bulk_write` executes the batch in order. -/

structure UOp where
  keyFields : List String
  keyVals : List Val
  setDoc : Doc
deriving DecidableEq, Repr

/-- Project a document onto a list of key fields. -/
def keyProj (ks : List String) (d : Doc) : List (Option Val) :=
  ks.map (fun k => getField d k)

/-- The equality filter `{f₁: v₁, …}` of an upsert matches `d`. -/
def kMatch (o : UOp) (d : Doc) : Prop :=
  keyProj o.keyFields d = o.keyVals.map some

instance (o : UOp) (d : Doc) : Decidable (kMatch o d) := by
  unfold kMatch; exact inferInstance

/-- The document inserted by an upsert that matched nothing: filter
equality fields overwritten by the `$set` fields. -/
def insertDoc (o : UOp) : Doc :=
  setFields o.setDoc (o.keyFields.zip o.keyVals)

/-- One `UpdateOne(filter, {"$set": …}, upsert=True)` against a
collection: update the first matching document, else append. -/
def applyOp (s : List Doc) (o : UOp) : List Doc :=
  match s with
  | [] => [insertDoc o]
  | d :: t => if kMatch o d then setFields o.setDoc d :: t else d :: applyOp t o

/-- `bulk_write` of a batch of upserts, in order. -/
def runOps (s : List Doc) (ops : List UOp) : List Doc :=
  ops.foldl applyOp s

/-- `find_one` by key equality filter: the first document whose key
projection equals the given values. -/
def findK (ks : List String) (vs : List Val) (s : List Doc) : Option Doc :=
  s.find? (fun d => decide (keyProj ks d = vs.map some))

/-- The `$set` document of an op carries its own filter values (true of
every op the ingest script builds: the filter fields are copied into
the written document). -/
def selfKeyed (o : UOp) : Prop :=
  keyProj o.keyFields o.setDoc = o.keyVals.map some

/-- A well-formed batch: every op filters on the same key fields and is
self-keyed. -/
def WFOps (ks : List String) (ops : List UOp) : Prop :=
  ∀ o ∈ ops, o.keyFields = ks ∧ selfKeyed o

theorem keyProj_setFields (ks : List String) (vs : List Val) (sd m : Doc)
    (h : keyProj ks sd = vs.map some) :
    keyProj ks (setFields sd m) = vs.map some := by
  induction ks generalizing vs with
  | nil =>
    cases vs with
    | nil => rfl
    | cons v vt => exact absurd h (by simp [keyProj])
  | cons k kt ih =>
    cases vs with
    | nil => exact absurd h (by simp [keyProj])
    | cons v vt =>
      simp only [keyProj, List.map_cons, List.cons.injEq] at h ⊢
      obtain ⟨h1, h2⟩ := h
      refine ⟨?_, ih vt h2⟩
      rw [getField_setFields, h1]
      rfl

/-- Updating a matching document by a self-keyed op does not change the
key projection of the document (the op rewrites the key fields with the
values they already had). -/
theorem keyProj_update_eq (ks : List String) (o : UOp) (d : Doc)
    (hf : o.keyFields = ks) (hs : selfKeyed o) (hm : kMatch o d) :
    keyProj ks (setFields o.setDoc d) = keyProj ks d := by
  subst hf
  unfold kMatch at hm
  rw [hm, keyProj_setFields o.keyFields o.keyVals o.setDoc d hs]

theorem kMatch_setFields_self (o : UOp) (m : Doc) (hs : selfKeyed o) :
    kMatch o (setFields o.setDoc m) :=
  keyProj_setFields o.keyFields o.keyVals o.setDoc m hs

theorem kMatch_insertDoc (o : UOp) (hs : selfKeyed o) : kMatch o (insertDoc o) :=
  kMatch_setFields_self o _ hs

theorem map_some_inj {a b : List Val} (h : a.map some = b.map some) : a = b := by
  have : Function.Injective (some : Val → Option Val) := fun x y hxy => Option.some.inj hxy
  exact List.map_injective_iff.mpr this h

/-- An upsert keyed on different values leaves `find_one` by this key
unchanged. -/
theorem findK_applyOp_ne (ks : List String) (vs : List Val) (o : UOp) (s : List Doc)
    (hf : o.keyFields = ks) (hs : selfKeyed o) (hne : vs ≠ o.keyVals) :
    findK ks vs (applyOp s o) = findK ks vs s := by
  induction s with
  | nil =>
    show List.find? _ [insertDoc o] = List.find? _ []
    have hk : keyProj ks (insertDoc o) = o.keyVals.map some := by
      subst hf; exact kMatch_insertDoc o hs
    have : ¬ (keyProj ks (insertDoc o) = vs.map some) := by
      rw [hk]; intro h; exact hne (map_some_inj h).symm
    simp [List.find?, this]
  | cons d t ih =>
    by_cases hm : kMatch o d
    · have h1 : applyOp (d :: t) o = setFields o.setDoc d :: t := by
        simp [applyOp, hm]
      have hkd : keyProj ks d = o.keyVals.map some := by subst hf; exact hm
      have hne1 : ¬ (keyProj ks d = vs.map some) := by
        rw [hkd]; intro h; exact hne (map_some_inj h).symm
      have hne2 : ¬ (keyProj ks (setFields o.setDoc d) = vs.map some) := by
        rw [keyProj_update_eq ks o d hf hs hm]; exact hne1
      rw [h1]
      show List.find? _ _ = List.find? _ _
      simp [List.find?, hne1, hne2]
    · have h1 : applyOp (d :: t) o = d :: applyOp t o := by
        simp [applyOp, hm]
      rw [h1]
      show List.find? _ _ = List.find? _ _
      by_cases hd : keyProj ks d = vs.map some
      · simp [List.find?, hd]
      · simp only [List.find?, decide_eq_true_eq]
        simp [hd]
        exact ih

/-- An upsert keyed on its own values updates (or creates) exactly the
document `find_one` by that key sees. -/
theorem findK_applyOp_eq (o : UOp) (s : List Doc) (hs : selfKeyed o) :
    findK o.keyFields o.keyVals (applyOp s o)
      = some (match findK o.keyFields o.keyVals s with
              | some d => setFields o.setDoc d
              | none => insertDoc o) := by
  induction s with
  | nil =>
    have hk : keyProj o.keyFields (insertDoc o) = o.keyVals.map some :=
      kMatch_insertDoc o hs
    simp [findK, applyOp, List.find?, hk]
  | cons d t ih =>
    by_cases hm : kMatch o d
    · have h1 : applyOp (d :: t) o = setFields o.setDoc d :: t := by
        simp [applyOp, hm]
      have h2 : keyProj o.keyFields (setFields o.setDoc d) = o.keyVals.map some :=
        kMatch_setFields_self o d hs
      have h3 : keyProj o.keyFields d = o.keyVals.map some := hm
      rw [h1]
      simp [findK, List.find?, h2, h3]
    · have h1 : applyOp (d :: t) o = d :: applyOp t o := by
        simp [applyOp, hm]
      have h3 : ¬ (keyProj o.keyFields d = o.keyVals.map some) := hm
      rw [h1]
      simp only [findK, List.find?] at ih ⊢
      simp [h3]
      exact ih

/-! ## Characterizing a bulk upsert run through `find_one` -/

/-- Fold a batch of `$set`s over one document. -/
def opsFold (ops : List UOp) (m : Doc) : Doc :=
  ops.foldl (fun acc o => setFields o.setDoc acc) m

/-- What a batch of same-key upserts does to the single document under
that key: fold the `$set`s over the existing document, or over the
upsert-inserted document of the first op if none existed. -/
def upsertFold (base : Option Doc) (ops : List UOp) : Option Doc :=
  match base, ops with
  | some d, _ => some (opsFold ops d)
  | none, [] => none
  | none, o :: rest => some (opsFold rest (insertDoc o))

theorem opsFold_nil (m : Doc) : opsFold [] m = m := rfl

theorem opsFold_cons (o : UOp) (ops : List UOp) (m : Doc) :
    opsFold (o :: ops) m = opsFold ops (setFields o.setDoc m) := rfl

/-- Decomposition of a `$set` fold: a prefix independent of the start
document, followed by the fields of the start document that no `$set`
in the batch names. -/
theorem opsFold_decomp (ops : List UOp) (m : Doc) :
    opsFold ops m
      = opsFold ops []
        ++ m.filter (fun kv => ops.all (fun o => (getField o.setDoc kv.1).isNone)) := by
  induction ops generalizing m with
  | nil => simp [opsFold]
  | cons o rest ih =>
    rw [opsFold_cons, ih, opsFold_cons]
    have hbase : setFields o.setDoc ([] : Doc) = o.setDoc := by
      simp [setFields]
    rw [hbase, ih o.setDoc]
    unfold setFields
    rw [List.filter_append, List.append_assoc]
    congr 1
    rw [List.filter_filter]
    have hfun : (fun a : String × Val =>
          (rest.all fun o => (getField o.setDoc a.1).isNone)
            && (getField o.setDoc a.1).isNone)
        = (fun kv : String × Val =>
          (o :: rest).all fun o => (getField o.setDoc kv.1).isNone) := by
      funext kv
      simp [List.all_cons, Bool.and_comm]
    rw [hfun]

/-- Every field of the start-independent prefix is named by some `$set`
in the batch. -/
theorem mem_opsFold (ops : List UOp) (m : Doc) (kv : String × Val)
    (h : kv ∈ opsFold ops m) : kv ∈ m ∨ ∃ o ∈ ops, kv ∈ o.setDoc := by
  induction ops generalizing m with
  | nil => exact Or.inl h
  | cons o rest ih =>
    rw [opsFold_cons] at h
    rcases ih _ h with h1 | ⟨o2, ho2, hkv⟩
    · unfold setFields at h1
      rcases List.mem_append.mp h1 with h2 | h2
      · exact Or.inr ⟨o, List.mem_cons_self o rest, h2⟩
      · exact Or.inl (List.mem_filter.mp h2).1
    · exact Or.inr ⟨o2, List.mem_cons_of_mem o ho2, hkv⟩

theorem getField_isSome_of_mem {d : Doc} {k : String} {v : Val}
    (h : (k, v) ∈ d) : (getField d k).isSome := by
  induction d with
  | nil => cases h
  | cons kv t ih =>
    rcases List.mem_cons.mp h with h1 | h1
    · cases h1; simp [getField, List.lookup]
    · by_cases hk : kv.1 = k
      · simp [getField, List.lookup, hk]
      · have hbeq : (k == kv.1) = false := by
          simp [BEq.beq]; exact fun e => hk e.symm
        simp only [getField, List.lookup, hbeq]
        exact ih h1

/-- Folding the same batch of `$set`s twice over a document is the same
as folding it once (last-writer-wins per field). -/
theorem opsFold_idem (ops : List UOp) (m : Doc) :
    opsFold ops (opsFold ops m) = opsFold ops m := by
  set q : String × Val → Bool :=
    fun kv => ops.all (fun o => (getField o.setDoc kv.1).isNone) with hq
  rw [opsFold_decomp ops m, opsFold_decomp ops (opsFold ops [] ++ List.filter q m)]
  rw [List.filter_append]
  have h1 : (opsFold ops []).filter q = [] := by
    rw [List.filter_eq_nil_iff]
    intro kv hkv
    rcases mem_opsFold ops [] kv hkv with h | ⟨o, ho, hmem⟩
    · cases h
    · have hsome := getField_isSome_of_mem hmem
      rw [hq]
      simp only [List.all_eq_true]
      intro hall
      have h2 := hall o ho
      cases hg : getField o.setDoc kv.1 with
      | none => rw [hg] at hsome; cases hsome
      | some v => rw [hg] at h2; cases h2
  rw [h1, List.filter_filter]
  simp

/-- Main content characterization: after a bulk upsert run, the document
`find_one` sees under a key equals the fold of the ops keyed on those
values over what was there before (or over the upsert-insert of the
first such op). -/
theorem findK_runOps (ks : List String) (vs : List Val) (ops : List UOp)
    (s : List Doc) (hw : WFOps ks ops) :
    findK ks vs (runOps s ops)
      = upsertFold (findK ks vs s)
          (ops.filter (fun o => decide (o.keyVals = vs))) := by
  induction ops generalizing s with
  | nil =>
    cases h : findK ks vs s <;> simp [runOps, upsertFold, h, opsFold]
  | cons o rest ih =>
    obtain ⟨hf, hs⟩ := hw o (List.mem_cons_self o rest)
    have hwrest : WFOps ks rest := fun o2 ho2 => hw o2 (List.mem_cons_of_mem o ho2)
    have hrun : runOps s (o :: rest) = runOps (applyOp s o) rest := rfl
    rw [hrun, ih (applyOp s o) hwrest]
    by_cases hvs : o.keyVals = vs
    · subst hvs
      have h2 := findK_applyOp_eq o s hs
      rw [hf] at h2
      rw [h2]
      have hfil : (o :: rest).filter (fun o2 => decide (o2.keyVals = o.keyVals))
          = o :: rest.filter (fun o2 => decide (o2.keyVals = o.keyVals)) := by
        simp [List.filter_cons]
      rw [hfil]
      cases hbase : findK ks o.keyVals s with
      | some d => simp [upsertFold, opsFold_cons]
      | none => simp [upsertFold, opsFold_cons]
    · have h2 := findK_applyOp_ne ks vs o s hf hs (fun h => hvs h.symm)
      rw [h2]
      have hfil : (o :: rest).filter (fun o2 => decide (o2.keyVals = vs))
          = rest.filter (fun o2 => decide (o2.keyVals = vs)) := by
        simp [List.filter_cons, hvs]
      rw [hfil]

/-- Every op of a run leaves a document under its key: the key is
present after the run. -/
theorem findK_runOps_isSome (ks : List String) (ops : List UOp) (s : List Doc)
    (hw : WFOps ks ops) (o : UOp) (ho : o ∈ ops) :
    (findK ks o.keyVals (runOps s ops)).isSome := by
  rw [findK_runOps ks o.keyVals ops s hw]
  have hmem : o ∈ ops.filter (fun o2 => decide (o2.keyVals = o.keyVals)) := by
    rw [List.mem_filter]; exact ⟨ho, by simp⟩
  cases hfil : ops.filter (fun o2 => decide (o2.keyVals = o.keyVals)) with
  | nil => rw [hfil] at hmem; cases hmem
  | cons a t =>
    cases hbase : findK ks o.keyVals s <;> simp [upsertFold]

/-- Re-running a batch does not change what `find_one` sees under any
key. -/
theorem findK_runOps_idem (ks : List String) (vs : List Val) (ops : List UOp)
    (s : List Doc) (hw : WFOps ks ops) :
    findK ks vs (runOps (runOps s ops) ops) = findK ks vs (runOps s ops) := by
  rw [findK_runOps ks vs ops (runOps s ops) hw, findK_runOps ks vs ops s hw]
  cases hfil : ops.filter (fun o2 => decide (o2.keyVals = vs)) with
  | nil =>
    cases hbase : findK ks vs s <;> simp [upsertFold, opsFold]
  | cons o rest =>
    cases hbase : findK ks vs s with
    | some d =>
      simp only [upsertFold]
      rw [opsFold_idem]
    | none =>
      simp only [upsertFold]
      have h1 : opsFold rest (insertDoc o)
          = opsFold (o :: rest) (o.keyFields.zip o.keyVals) := by
        rw [opsFold_cons]; rfl
      rw [h1, opsFold_idem]

/-! ## Counts, membership and key uniqueness across a run -/

theorem applyOp_of_no_match (o : UOp) (s : List Doc)
    (h : ∀ d ∈ s, ¬ kMatch o d) : applyOp s o = s ++ [insertDoc o] := by
  induction s with
  | nil => rfl
  | cons d t ih =>
    have hd := h d (List.mem_cons_self d t)
    have ht : ∀ d2 ∈ t, ¬ kMatch o d2 := fun d2 hd2 => h d2 (List.mem_cons_of_mem d hd2)
    simp [applyOp, hd, ih ht]

theorem length_applyOp_of_match (o : UOp) (s : List Doc)
    (h : ∃ d ∈ s, kMatch o d) : (applyOp s o).length = s.length := by
  induction s with
  | nil => obtain ⟨d, hd, _⟩ := h; cases hd
  | cons d t ih =>
    by_cases hm : kMatch o d
    · simp [applyOp, hm]
    · have ht : ∃ d2 ∈ t, kMatch o d2 := by
        obtain ⟨d2, hd2, hk⟩ := h
        rcases List.mem_cons.mp hd2 with h1 | h1
        · subst h1; exact absurd hk hm
        · exact ⟨d2, h1, hk⟩
      simp [applyOp, hm, ih ht]

theorem exists_match_of_findK_isSome (ks : List String) (vs : List Val) (s : List Doc)
    (h : (findK ks vs s).isSome) : ∃ d ∈ s, keyProj ks d = vs.map some := by
  unfold findK at h
  cases hf : s.find? (fun d => decide (keyProj ks d = vs.map some)) with
  | none => rw [hf] at h; cases h
  | some d =>
    have hmem := List.mem_of_find?_eq_some hf
    have hpred := List.find?_some hf
    exact ⟨d, hmem, of_decide_eq_true hpred⟩

theorem findK_isSome_applyOp (ks : List String) (vs : List Val) (o : UOp) (s : List Doc)
    (hf : o.keyFields = ks) (hs : selfKeyed o)
    (h : (findK ks vs s).isSome) : (findK ks vs (applyOp s o)).isSome := by
  by_cases hvs : vs = o.keyVals
  · subst hvs; subst hf
    rw [findK_applyOp_eq o s hs]
    rfl
  · rw [findK_applyOp_ne ks vs o s hf hs hvs]
    exact h

/-- A run in which every op finds its key already present performs only
in-place updates: the collection size does not change. -/
theorem length_runOps_all_present (ks : List String) (ops : List UOp) (s : List Doc)
    (hw : WFOps ks ops)
    (h : ∀ o ∈ ops, (findK ks o.keyVals s).isSome) :
    (runOps s ops).length = s.length := by
  induction ops generalizing s with
  | nil => rfl
  | cons o rest ih =>
    obtain ⟨hf, hs⟩ := hw o (List.mem_cons_self o rest)
    have hwrest : WFOps ks rest := fun o2 ho2 => hw o2 (List.mem_cons_of_mem o ho2)
    have hpres := h o (List.mem_cons_self o rest)
    have hmatch : ∃ d ∈ s, kMatch o d := by
      obtain ⟨d, hd, hkd⟩ := exists_match_of_findK_isSome ks o.keyVals s hpres
      refine ⟨d, hd, ?_⟩
      unfold kMatch; rw [hf]; exact hkd
    have hrest : ∀ o2 ∈ rest, (findK ks o2.keyVals (applyOp s o)).isSome := by
      intro o2 ho2
      exact findK_isSome_applyOp ks o2.keyVals o s hf hs
        (h o2 (List.mem_cons_of_mem o ho2))
    show (runOps (applyOp s o) rest).length = s.length
    rw [ih (applyOp s o) hwrest hrest]
    exact length_applyOp_of_match o s hmatch

theorem mem_applyOp_invariant (P : Doc → Prop) (o : UOp) (s : List Doc)
    (hstart : ∀ d ∈ s, P d)
    (hset : ∀ d, P d → P (setFields o.setDoc d))
    (hins : P (insertDoc o)) :
    ∀ d ∈ applyOp s o, P d := by
  induction s with
  | nil =>
    intro d hd
    rcases List.mem_cons.mp hd with h1 | h1
    · subst h1; exact hins
    · cases h1
  | cons d0 t iht =>
    intro d hd
    by_cases hm : kMatch o d0
    · rw [show applyOp (d0 :: t) o = setFields o.setDoc d0 :: t by simp [applyOp, hm]] at hd
      rcases List.mem_cons.mp hd with h1 | h1
      · subst h1
        exact hset d0 (hstart d0 (List.mem_cons_self d0 t))
      · exact hstart d (List.mem_cons_of_mem d0 h1)
    · rw [show applyOp (d0 :: t) o = d0 :: applyOp t o by simp [applyOp, hm]] at hd
      rcases List.mem_cons.mp hd with h1 | h1
      · rw [h1]; exact hstart d0 (List.mem_cons_self d0 t)
      · exact iht (fun d2 hd2 => hstart d2 (List.mem_cons_of_mem d0 hd2)) d h1

/-- Invariant preservation through a run: a document property closed
under the batch `$set`s and satisfied by the batch inserts holds for
every document after the run if it holds before. -/
theorem mem_runOps_invariant (P : Doc → Prop) (ops : List UOp) (s : List Doc)
    (hstart : ∀ d ∈ s, P d)
    (hset : ∀ o ∈ ops, ∀ d, P d → P (setFields o.setDoc d))
    (hins : ∀ o ∈ ops, P (insertDoc o)) :
    ∀ d ∈ runOps s ops, P d := by
  induction ops generalizing s with
  | nil => exact hstart
  | cons o rest ih =>
    exact ih (applyOp s o)
      (mem_applyOp_invariant P o s hstart
        (hset o (List.mem_cons_self o rest))
        (hins o (List.mem_cons_self o rest)))
      (fun o2 ho2 => hset o2 (List.mem_cons_of_mem o ho2))
      (fun o2 ho2 => hins o2 (List.mem_cons_of_mem o ho2))

theorem mem_applyOp_of_unmatched (o : UOp) (s : List Doc) (d : Doc)
    (hd : d ∈ s) (h : ¬ kMatch o d) : d ∈ applyOp s o := by
  induction s with
  | nil => cases hd
  | cons d0 t iht =>
    by_cases hm : kMatch o d0
    · rw [show applyOp (d0 :: t) o = setFields o.setDoc d0 :: t by simp [applyOp, hm]]
      rcases List.mem_cons.mp hd with h1 | h1
      · subst h1; exact absurd hm h
      · exact List.mem_cons_of_mem _ h1
    · rw [show applyOp (d0 :: t) o = d0 :: applyOp t o by simp [applyOp, hm]]
      rcases List.mem_cons.mp hd with h1 | h1
      · rw [h1]; exact List.mem_cons_self d0 _
      · exact List.mem_cons_of_mem d0 (iht h1)

/-- A document matching no op of the batch is still in the collection
after the run (upserts never delete). -/
theorem mem_runOps_of_unmatched (ops : List UOp) (s : List Doc) (d : Doc)
    (hd : d ∈ s) (h : ∀ o ∈ ops, ¬ kMatch o d) : d ∈ runOps s ops := by
  induction ops generalizing s with
  | nil => exact hd
  | cons o rest ih =>
    exact ih (applyOp s o)
      (mem_applyOp_of_unmatched o s d hd (h o (List.mem_cons_self o rest)))
      (fun o2 ho2 => h o2 (List.mem_cons_of_mem o ho2))

/-- Number of documents in the collection carrying the given key
values. -/
def keyCount (ks : List String) (vs : List Val) (s : List Doc) : Nat :=
  s.countP (fun d => decide (keyProj ks d = vs.map some))

/-- The store-level uniqueness invariant of a unique index on `ks`: at
most one document per key value tuple. -/
def uniqueKeys (ks : List String) (s : List Doc) : Prop :=
  ∀ vs : List Val, keyCount ks vs s ≤ 1

theorem keyCount_applyOp_of_match (ks : List String) (vs : List Val) (o : UOp)
    (s : List Doc) (hf : o.keyFields = ks) (hs : selfKeyed o)
    (h : ∃ d ∈ s, kMatch o d) :
    keyCount ks vs (applyOp s o) = keyCount ks vs s := by
  induction s with
  | nil => obtain ⟨d, hd, _⟩ := h; cases hd
  | cons d t ih =>
    by_cases hm : kMatch o d
    · rw [show applyOp (d :: t) o = setFields o.setDoc d :: t by simp [applyOp, hm]]
      unfold keyCount
      rw [List.countP_cons, List.countP_cons]
      rw [keyProj_update_eq ks o d hf hs hm]
    · rw [show applyOp (d :: t) o = d :: applyOp t o by simp [applyOp, hm]]
      have ht : ∃ d2 ∈ t, kMatch o d2 := by
        obtain ⟨d2, hd2, hk⟩ := h
        rcases List.mem_cons.mp hd2 with h1 | h1
        · subst h1; exact absurd hk hm
        · exact ⟨d2, h1, hk⟩
      unfold keyCount at ih ⊢
      rw [List.countP_cons, List.countP_cons, ih ht]

/-- A batch of self-keyed upserts preserves the unique-index invariant:
no op ever creates a second document under an existing key. -/
theorem uniqueKeys_applyOp (ks : List String) (o : UOp) (s : List Doc)
    (hf : o.keyFields = ks) (hs : selfKeyed o)
    (hu : uniqueKeys ks s) : uniqueKeys ks (applyOp s o) := by
  by_cases h : ∃ d ∈ s, kMatch o d
  · intro vs
    rw [keyCount_applyOp_of_match ks vs o s hf hs h]
    exact hu vs
  · push_neg at h
    rw [applyOp_of_no_match o s h]
    intro vs
    unfold keyCount
    rw [List.countP_append]
    by_cases hvs : vs = o.keyVals
    · subst hvs
      have hzero : keyCount ks o.keyVals s = 0 := by
        unfold keyCount
        rw [List.countP_eq_zero]
        intro d hd
        have := h d hd
        unfold kMatch at this
        rw [hf] at this
        simpa using this
      unfold keyCount at hzero
      rw [hzero]
      have : List.countP (fun d => decide (keyProj ks d = o.keyVals.map some))
          [insertDoc o] ≤ 1 := by
        simp [List.countP_cons]
        split <;> omega
      omega
    · have hins : ¬ (keyProj ks (insertDoc o) = vs.map some) := by
        have hk : keyProj ks (insertDoc o) = o.keyVals.map some := by
          subst hf; exact kMatch_insertDoc o hs
        rw [hk]
        intro hc
        exact hvs (map_some_inj hc).symm
      have h1 : List.countP (fun d => decide (keyProj ks d = vs.map some))
          [insertDoc o] = 0 := by
        simp [List.countP_cons, hins]
      rw [h1]
      have := hu vs
      unfold keyCount at this
      omega

theorem uniqueKeys_runOps (ks : List String) (ops : List UOp) (s : List Doc)
    (hw : WFOps ks ops) (hu : uniqueKeys ks s) : uniqueKeys ks (runOps s ops) := by
  induction ops generalizing s with
  | nil => exact hu
  | cons o rest ih =>
    obtain ⟨hf, hs⟩ := hw o (List.mem_cons_self o rest)
    exact ih (applyOp s o)
      (fun o2 ho2 => hw o2 (List.mem_cons_of_mem o ho2))
      (uniqueKeys_applyOp ks o s hf hs hu)

/-! ## The ingest data model (scripts/ingest_srd.py)

A validated canonical class document, as the spec's data model section
describes it and as the script reads it (the JSON schema itself lives
outside the repository snapshot; the field set is the one the script
accesses). `hit_die` and `primary_abilities` are opaque payloads: the
script never inspects them. -/

structure FeatureSpec where
  name : String
  description_md : String
  source : String
  srd_feature_id : Option String
deriving DecidableEq, Repr

structure LevelBlock where
  level : Nat
  features : List FeatureSpec
deriving DecidableEq, Repr

structure ClassDoc where
  name : String
  srd_id : String
  hit_die : Val
  primary_abilities : Val
  edition : String
  license : String
  features_by_level : List LevelBlock
deriving DecidableEq, Repr

def optStr : Option String → Val
  | some s => .str s
  | none => .null

def featureSpecVal (f : FeatureSpec) : Val :=
  .obj [("name", .str f.name), ("description_md", .str f.description_md),
        ("source", .str f.source), ("srd_feature_id", optStr f.srd_feature_id)]

def levelBlockVal (lb : LevelBlock) : Val :=
  .obj [("level", .num lb.level),
        ("features", .arr (lb.features.map featureSpecVal))]

/-- The class document as a stored document (the dict the script read
from JSON). -/
def baseDoc (c : ClassDoc) : Doc :=
  [("name", .str c.name), ("srd_id", .str c.srd_id), ("hit_die", c.hit_die),
   ("primary_abilities", c.primary_abilities), ("edition", .str c.edition),
   ("license", .str c.license),
   ("features_by_level", .arr (c.features_by_level.map levelBlockVal))]

/-- `sum(len(e.get("features", [])) for e in c.get("features_by_level", []))`. -/
def feature_count (c : ClassDoc) : Nat :=
  (c.features_by_level.map (fun lb => lb.features.length)).sum

/-- The derived `meta` block attached before the class upsert
(lines 216-221): levels, feature count, import provenance. -/
def classMetaVal (c : ClassDoc) (t : String) : Val :=
  .obj [("levels_supported", .arr (c.features_by_level.map (fun lb => Val.num lb.level))),
        ("feature_count", .num (feature_count c)),
        ("imported_at", .str t),
        ("import_version", .num 1)]

/-- `c = dict(c); c["meta"] = {...}`: the source document with the
derived meta block appended. `t` is the run timestamp `iso_now()`. -/
def withMeta (c : ClassDoc) (t : String) : Doc :=
  baseDoc c ++ [("meta", classMetaVal c t)]

/-- The class upsert batch: `UpdateOne({"srd_id": …}, {"$set": c},
upsert=True)` per document (lines 210-224). -/
def classOps (docs : List ClassDoc) (t : String) : List UOp :=
  docs.map (fun c => ⟨["srd_id"], [.str c.srd_id], withMeta c t⟩)

/-- `f"{slugify(cls_name)}-{base_slug}-l{lvl}"` (line 237). -/
def featSlug (clsName featName : String) (lvl : Nat) : String :=
  slugify clsName ++ "-" ++ slugify featName ++ "-l" ++ toString lvl

/-- The normalized feature document built per feature per level
(lines 239-251). -/
def featDoc (c : ClassDoc) (lvl : Nat) (f : FeatureSpec) (slug : String) (t : String) : Doc :=
  [("class_name", .str c.name), ("class_srd_id", .str c.srd_id),
   ("edition", .str c.edition), ("level", .num lvl), ("name", .str f.name),
   ("slug", .str slug), ("srd_feature_id", optStr f.srd_feature_id),
   ("description_md", .str f.description_md), ("source", .str f.source),
   ("license", .str c.license),
   ("meta", .obj [("imported_at", .str t), ("import_version", .num 1)])]

def featKeyFields : List String := ["class_srd_id", "level", "slug"]

/-- The feature upsert batch (lines 226-258), keyed by
`(class_srd_id, level, slug)`. -/
def featOps (docs : List ClassDoc) (t : String) : List UOp :=
  docs.flatMap (fun c =>
    c.features_by_level.flatMap (fun lb =>
      lb.features.map (fun f =>
        let slug := featSlug c.name f.name lb.level
        ⟨featKeyFields, [.str c.srd_id, .num lb.level, .str slug],
         featDoc c lb.level f slug t⟩)))

/-! ## Index reconciliation (lines 168-207) -/

structure IndexSpec where
  name : String
  key : List (String × Int)
  unique : Bool
deriving DecidableEq, Repr

/-- MongoDB default index name: fields and directions joined by
underscores. -/
def defaultIndexName (k : List (String × Int)) : String :=
  String.intercalate "_" (k.map (fun fd => fd.1 ++ "_" ++ toString fd.2))

/-- `drop_index(name)` wrapped in try/except: remove the index with the
given name if present. -/
def dropIndexByName (n : String) (l : List IndexSpec) : List IndexSpec :=
  l.filter (fun ix => ix.name != n)

/-- The guard loops of lines 184-188 and 196-199: find the first index
whose key pattern matches, drop it (by name; index names are unique in
a MongoDB collection, so this removes exactly that index), then stop. -/
def dropFirstWithKey (k : List (String × Int)) : List IndexSpec → List IndexSpec
  | [] => []
  | ix :: t => if ix.key = k then t else ix :: dropFirstWithKey k t

/-- `create_index(keys, unique=u)`: a no-op if an index with the same
key pattern already exists, else append one under the default name. -/
def create_index (k : List (String × Int)) (u : Bool) (l : List IndexSpec) : List IndexSpec :=
  if l.any (fun ix => decide (ix.key = k)) then l
  else l ++ [⟨defaultIndexName k, k, u⟩]

def srdIdKey : List (String × Int) := [("srd_id", 1)]
def classNameKey : List (String × Int) := [("name", 1)]
def featTripleKey : List (String × Int) :=
  [("class_srd_id", 1), ("level", 1), ("slug", 1)]
def featClassLevelKey : List (String × Int) := [("class_name", 1), ("level", 1)]

/-- Class-collection index reconciliation (lines 184-192): drop any
index keyed on `srd_id`, recreate it unique, ensure the `name` index. -/
def reconcileClassIndexes (l : List IndexSpec) : List IndexSpec :=
  create_index classNameKey false
    (create_index srdIdKey true (dropFirstWithKey srdIdKey l))

/-- Feature-collection index reconciliation (lines 171-174 and
194-207): drop the legacy `uniq_class_level_name` index, drop any index
keyed on the canonical triple, recreate it unique, ensure the
`(class_name, level)` helper index. -/
def reconcileFeatureIndexes (l : List IndexSpec) : List IndexSpec :=
  create_index featClassLevelKey false
    (create_index featTripleKey true
      (dropFirstWithKey featTripleKey (dropIndexByName "uniq_class_level_name" l)))

/-! ## The store and the upsert engine -/

structure Store where
  classes : List Doc
  features : List Doc
  classIndexes : List IndexSpec
  featureIndexes : List IndexSpec

/-- Filter of `delete_many({"class_srd_id": {"$exists": False}})`
complement: the documents that survive the legacy cleanup. -/
def hasClassSrdId (d : Doc) : Bool :=
  (getField d "class_srd_id").isSome

/-- `upsert_classes_and_features` (lines 137-267): legacy feature
cleanup, index reconciliation, class upsert batch, feature upsert
batch. `t` is the run timestamp `iso_now()`. -/
def upsert_classes_and_features (docs : List ClassDoc) (t : String) (st : Store) : Store :=
  { classes := runOps st.classes (classOps docs t)
    features := runOps (st.features.filter hasClassSrdId) (featOps docs t)
    classIndexes := reconcileClassIndexes st.classIndexes
    featureIndexes := reconcileFeatureIndexes st.featureIndexes }

/-- The counts the engine returns (lines 263-267): totals re-read from
the store after the batches. -/
def upsertCounts (docs : List ClassDoc) (t : String) (st : Store) : Nat × Nat :=
  ((upsert_classes_and_features docs t st).classes.length,
   (upsert_classes_and_features docs t st).features.length)

theorem classOps_wf (docs : List ClassDoc) (t : String) :
    WFOps ["srd_id"] (classOps docs t) := by
  intro o ho
  obtain ⟨c, _, rfl⟩ := List.mem_map.mp ho
  refine ⟨rfl, ?_⟩
  show keyProj ["srd_id"] (withMeta c t) = [some (.str c.srd_id)]
  simp [keyProj, getField, withMeta, baseDoc, List.lookup]

theorem featOps_wf (docs : List ClassDoc) (t : String) :
    WFOps featKeyFields (featOps docs t) := by
  intro o ho
  obtain ⟨c, _, ho2⟩ := List.mem_flatMap.mp ho
  obtain ⟨lb, _, ho3⟩ := List.mem_flatMap.mp ho2
  obtain ⟨f, _, rfl⟩ := List.mem_map.mp ho3
  refine ⟨rfl, ?_⟩
  show keyProj featKeyFields _ = _
  simp [keyProj, getField, featDoc, featKeyFields, List.lookup]

/-! ## Index reconciliation converges (set-wise) on a second run -/

/-- The MongoDB collection invariant the reconciler relies on: no two
indexes share a key pattern (MongoDB rejects a second index on the same
key pattern). -/
def wfIndexKeys (l : List IndexSpec) : Prop :=
  List.Pairwise (fun a b => a.key ≠ b.key) l

theorem dropFirstWithKey_sublist (k : List (String × Int)) (l : List IndexSpec) :
    (dropFirstWithKey k l).Sublist l := by
  induction l with
  | nil => exact List.Sublist.refl []
  | cons ix t ih =>
    by_cases h : ix.key = k
    · simp only [dropFirstWithKey, h, if_true]
      exact (List.sublist_cons_self ix t)
    · simp only [dropFirstWithKey, h, if_false, ite_false]
      exact List.Sublist.cons₂ ix ih

theorem dropFirstWithKey_key_ne (k : List (String × Int)) (l : List IndexSpec)
    (hwf : wfIndexKeys l) : ∀ ix ∈ dropFirstWithKey k l, ix.key ≠ k := by
  induction l with
  | nil => intro ix h; cases h
  | cons a t ih =>
    obtain ⟨hhead, htail⟩ := List.pairwise_cons.mp hwf
    by_cases h : a.key = k
    · simp only [dropFirstWithKey, h, if_true]
      intro ix hix
      have := hhead ix hix
      rw [h] at this
      exact fun hc => this hc.symm
    · simp only [dropFirstWithKey, h, if_false, ite_false]
      intro ix hix
      rcases List.mem_cons.mp hix with h1 | h1
      · rw [h1]; exact h
      · exact ih htail ix h1

theorem dropFirstWithKey_append_of_none (k : List (String × Int))
    (a b : List IndexSpec) (h : ∀ ix ∈ a, ix.key ≠ k) :
    dropFirstWithKey k (a ++ b) = a ++ dropFirstWithKey k b := by
  induction a with
  | nil => rfl
  | cons ix t ih =>
    have hne := h ix (List.mem_cons_self ix t)
    simp only [List.cons_append, dropFirstWithKey, hne, if_false, ite_false]
    exact congrArg (fun l => ix :: l)
      (ih (fun ix2 h2 => h ix2 (List.mem_cons_of_mem ix h2)))

theorem create_index_of_none (k : List (String × Int)) (u : Bool)
    (l : List IndexSpec) (h : ∀ ix ∈ l, ix.key ≠ k) :
    create_index k u l = l ++ [⟨defaultIndexName k, k, u⟩] := by
  unfold create_index
  rw [if_neg]
  intro hc
  rw [List.any_eq_true] at hc
  obtain ⟨ix, hix, hk⟩ := hc
  exact h ix hix (of_decide_eq_true hk)

theorem create_index_of_present (k : List (String × Int)) (u : Bool)
    (l : List IndexSpec) (h : ∃ ix ∈ l, ix.key = k) :
    create_index k u l = l := by
  unfold create_index
  rw [if_pos]
  rw [List.any_eq_true]
  obtain ⟨ix, hix, hk⟩ := h
  exact ⟨ix, hix, decide_eq_true hk⟩

/-- The canonical unique `srd_id` index under its default name. -/
def canonSrdIx : IndexSpec := ⟨defaultIndexName srdIdKey, srdIdKey, true⟩

def canonClassNameIx : IndexSpec := ⟨defaultIndexName classNameKey, classNameKey, false⟩

def canonTripleIx : IndexSpec := ⟨defaultIndexName featTripleKey, featTripleKey, true⟩

def canonClassLevelIx : IndexSpec := ⟨defaultIndexName featClassLevelKey, featClassLevelKey, false⟩

/-- Re-running the class-collection index reconciliation yields the same
index set. -/
theorem reconcileClassIndexes_idem (L : List IndexSpec) (hwf : wfIndexKeys L) :
    ∀ ix, ix ∈ reconcileClassIndexes (reconcileClassIndexes L)
      ↔ ix ∈ reconcileClassIndexes L := by
  set D := dropFirstWithKey srdIdKey L with hD
  have ha : ∀ ix ∈ D, ix.key ≠ srdIdKey := dropFirstWithKey_key_ne srdIdKey L hwf
  have hCS : create_index srdIdKey true D = D ++ [canonSrdIx] :=
    create_index_of_none srdIdKey true D ha
  have hrec : reconcileClassIndexes L
      = create_index classNameKey false (D ++ [canonSrdIx]) := by
    unfold reconcileClassIndexes
    rw [← hD, hCS]
  have hdropS : dropFirstWithKey srdIdKey (D ++ [canonSrdIx]) = D := by
    rw [dropFirstWithKey_append_of_none srdIdKey D [canonSrdIx] ha]
    simp [dropFirstWithKey, canonSrdIx]
  by_cases hn : ∃ ix ∈ D ++ [canonSrdIx], ix.key = classNameKey
  · have hL1 : reconcileClassIndexes L = D ++ [canonSrdIx] := by
      rw [hrec, create_index_of_present classNameKey false _ hn]
    have hL2 : reconcileClassIndexes (reconcileClassIndexes L) = D ++ [canonSrdIx] := by
      rw [hL1]
      unfold reconcileClassIndexes
      rw [hdropS, hCS, create_index_of_present classNameKey false _ hn]
    rw [hL2, hL1]
    intro ix; rfl
  · push_neg at hn
    have hCN : create_index classNameKey false (D ++ [canonSrdIx])
        = D ++ [canonSrdIx] ++ [canonClassNameIx] :=
      create_index_of_none classNameKey false _ hn
    have hL1 : reconcileClassIndexes L
        = D ++ [canonSrdIx] ++ [canonClassNameIx] := by
      rw [hrec, hCN]
    have hnameNe : (canonClassNameIx).key ≠ srdIdKey := by decide
    have hdrop2 : dropFirstWithKey srdIdKey (D ++ [canonSrdIx] ++ [canonClassNameIx])
        = D ++ [canonClassNameIx] := by
      rw [List.append_assoc,
        dropFirstWithKey_append_of_none srdIdKey D _ ha]
      have h2 : dropFirstWithKey srdIdKey ([canonSrdIx] ++ [canonClassNameIx])
          = [canonClassNameIx] := by
        simp [dropFirstWithKey, canonSrdIx]
      rw [h2]
    have hnone2 : ∀ ix ∈ D ++ [canonClassNameIx], ix.key ≠ srdIdKey := by
      intro ix hix
      rcases List.mem_append.mp hix with h1 | h1
      · exact ha ix h1
      · rw [List.mem_singleton.mp h1]; exact hnameNe
    have hCS2 : create_index srdIdKey true (D ++ [canonClassNameIx])
        = D ++ [canonClassNameIx] ++ [canonSrdIx] :=
      create_index_of_none srdIdKey true _ hnone2
    have hpres2 : ∃ ix ∈ D ++ [canonClassNameIx] ++ [canonSrdIx],
        ix.key = classNameKey := by
      refine ⟨canonClassNameIx, ?_, rfl⟩
      rw [List.append_assoc]
      exact List.mem_append.mpr (Or.inr (List.mem_cons_self _ _))
    have hL2 : reconcileClassIndexes (reconcileClassIndexes L)
        = D ++ [canonClassNameIx] ++ [canonSrdIx] := by
      rw [hL1]
      unfold reconcileClassIndexes
      rw [hdrop2, hCS2, create_index_of_present classNameKey false _ hpres2]
    rw [hL2, hL1]
    intro ix
    simp only [List.mem_append, List.mem_singleton]
    tauto

theorem wfIndexKeys_dropIndexByName (n : String) (l : List IndexSpec)
    (hwf : wfIndexKeys l) : wfIndexKeys (dropIndexByName n l) :=
  List.Pairwise.sublist (List.filter_sublist l) hwf

theorem mem_dropIndexByName (n : String) (l : List IndexSpec) :
    ∀ ix ∈ dropIndexByName n l, ix.name ≠ n := by
  intro ix hix
  have := (List.mem_filter.mp hix).2
  simpa using this

theorem dropIndexByName_eq_self (n : String) (l : List IndexSpec)
    (h : ∀ ix ∈ l, ix.name ≠ n) : dropIndexByName n l = l := by
  unfold dropIndexByName
  rw [List.filter_eq_self]
  intro ix hix
  simpa using h ix hix

/-- Re-running the feature-collection index reconciliation yields the
same index set. -/
theorem reconcileFeatureIndexes_idem (L : List IndexSpec) (hwf : wfIndexKeys L) :
    ∀ ix, ix ∈ reconcileFeatureIndexes (reconcileFeatureIndexes L)
      ↔ ix ∈ reconcileFeatureIndexes L := by
  set F := dropIndexByName "uniq_class_level_name" L with hF
  have hwfF : wfIndexKeys F := wfIndexKeys_dropIndexByName _ L hwf
  set D := dropFirstWithKey featTripleKey F with hD
  have ha : ∀ ix ∈ D, ix.key ≠ featTripleKey :=
    dropFirstWithKey_key_ne featTripleKey F hwfF
  have hDname : ∀ ix ∈ D, ix.name ≠ "uniq_class_level_name" := by
    intro ix hix
    exact mem_dropIndexByName _ L ix ((dropFirstWithKey_sublist featTripleKey F).mem hix)
  have hCT : create_index featTripleKey true D = D ++ [canonTripleIx] :=
    create_index_of_none featTripleKey true D ha
  have hrec : reconcileFeatureIndexes L
      = create_index featClassLevelKey false (D ++ [canonTripleIx]) := by
    unfold reconcileFeatureIndexes
    rw [← hF, ← hD, hCT]
  have hdropT : dropFirstWithKey featTripleKey (D ++ [canonTripleIx]) = D := by
    rw [dropFirstWithKey_append_of_none featTripleKey D [canonTripleIx] ha]
    simp [dropFirstWithKey, canonTripleIx]
  have hname1 : ∀ ix ∈ D ++ [canonTripleIx], ix.name ≠ "uniq_class_level_name" := by
    intro ix hix
    rcases List.mem_append.mp hix with h1 | h1
    · exact hDname ix h1
    · rw [List.mem_singleton.mp h1]; decide
  by_cases hn : ∃ ix ∈ D ++ [canonTripleIx], ix.key = featClassLevelKey
  · have hL1 : reconcileFeatureIndexes L = D ++ [canonTripleIx] := by
      rw [hrec, create_index_of_present featClassLevelKey false _ hn]
    have hL2 : reconcileFeatureIndexes (reconcileFeatureIndexes L)
        = D ++ [canonTripleIx] := by
      rw [hL1]
      unfold reconcileFeatureIndexes
      rw [dropIndexByName_eq_self _ _ hname1, hdropT, hCT,
        create_index_of_present featClassLevelKey false _ hn]
    rw [hL2, hL1]
    intro ix; rfl
  · push_neg at hn
    have hCN : create_index featClassLevelKey false (D ++ [canonTripleIx])
        = D ++ [canonTripleIx] ++ [canonClassLevelIx] :=
      create_index_of_none featClassLevelKey false _ hn
    have hL1 : reconcileFeatureIndexes L
        = D ++ [canonTripleIx] ++ [canonClassLevelIx] := by
      rw [hrec, hCN]
    have hname2 : ∀ ix ∈ D ++ [canonTripleIx] ++ [canonClassLevelIx],
        ix.name ≠ "uniq_class_level_name" := by
      intro ix hix
      rcases List.mem_append.mp hix with h1 | h1
      · exact hname1 ix h1
      · rw [List.mem_singleton.mp h1]; decide
    have hdrop2 : dropFirstWithKey featTripleKey
        (D ++ [canonTripleIx] ++ [canonClassLevelIx]) = D ++ [canonClassLevelIx] := by
      rw [List.append_assoc,
        dropFirstWithKey_append_of_none featTripleKey D _ ha]
      have h2 : dropFirstWithKey featTripleKey ([canonTripleIx] ++ [canonClassLevelIx])
          = [canonClassLevelIx] := by
        simp [dropFirstWithKey, canonTripleIx]
      rw [h2]
    have hnone2 : ∀ ix ∈ D ++ [canonClassLevelIx], ix.key ≠ featTripleKey := by
      intro ix hix
      rcases List.mem_append.mp hix with h1 | h1
      · exact ha ix h1
      · rw [List.mem_singleton.mp h1]; decide
    have hCT2 : create_index featTripleKey true (D ++ [canonClassLevelIx])
        = D ++ [canonClassLevelIx] ++ [canonTripleIx] :=
      create_index_of_none featTripleKey true _ hnone2
    have hpres2 : ∃ ix ∈ D ++ [canonClassLevelIx] ++ [canonTripleIx],
        ix.key = featClassLevelKey := by
      refine ⟨canonClassLevelIx, ?_, rfl⟩
      rw [List.append_assoc]
      exact List.mem_append.mpr (Or.inr (List.mem_cons_self _ _))
    have hL2 : reconcileFeatureIndexes (reconcileFeatureIndexes L)
        = D ++ [canonClassLevelIx] ++ [canonTripleIx] := by
      rw [hL1]
      unfold reconcileFeatureIndexes
      rw [dropIndexByName_eq_self _ _ hname2, hdrop2, hCT2,
        create_index_of_present featClassLevelKey false _ hpres2]
    rw [hL2, hL1]
    intro ix
    simp only [List.mem_append, List.mem_singleton]
    tauto

/-! ## Foreign-key invariant of the features collection -/

theorem featOps_fk (docs : List ClassDoc) (t : String) :
    ∀ o ∈ featOps docs t, (getField o.setDoc "class_srd_id").isSome := by
  intro o ho
  obtain ⟨c, _, ho2⟩ := List.mem_flatMap.mp ho
  obtain ⟨lb, _, ho3⟩ := List.mem_flatMap.mp ho2
  obtain ⟨f, _, rfl⟩ := List.mem_map.mp ho3
  simp [getField, featDoc, List.lookup]

theorem hasClassSrdId_setFields (sd d : Doc)
    (h : (getField sd "class_srd_id").isSome) :
    hasClassSrdId (setFields sd d) = true := by
  unfold hasClassSrdId
  rw [getField_setFields]
  cases hg : getField sd "class_srd_id" with
  | none => rw [hg] at h; cases h
  | some v => simp

/-- After any run of the engine, every document in the features
collection carries the `class_srd_id` foreign key: pre-existing
documents lacking it were deleted by the reconciliation pass, every
written document contains it, and `$set` merges never remove it. -/
theorem features_run_fk (docs : List ClassDoc) (t : String) (st : Store) :
    ∀ d ∈ (upsert_classes_and_features docs t st).features,
      hasClassSrdId d = true := by
  intro d hd
  refine mem_runOps_invariant (fun d2 => hasClassSrdId d2 = true)
    (featOps docs t) (st.features.filter hasClassSrdId) ?_ ?_ ?_ d hd
  · intro d2 hd2
    exact (List.mem_filter.mp hd2).2
  · intro o ho d2 _
    exact hasClassSrdId_setFields o.setDoc d2 (featOps_fk docs t o ho)
  · intro o ho
    exact hasClassSrdId_setFields o.setDoc _ (featOps_fk docs t o ho)

theorem features_run_filter_fk (docs : List ClassDoc) (t : String) (st : Store) :
    (upsert_classes_and_features docs t st).features.filter hasClassSrdId
      = (upsert_classes_and_features docs t st).features :=
  List.filter_eq_self.mpr (features_run_fk docs t st)

/-! ## Claim theorems -/

/-- A fixed run timestamp used by witnesses. -/
def t0 : String := "2026-01-01T00:00:00Z"

def secondWindSpec : FeatureSpec :=
  ⟨"Second Wind", "Recover hit points.", "SRD 5.1", none⟩

/-- A small concrete class document used by witnesses. -/
def fighterDoc : ClassDoc :=
  { name := "Fighter"
    srd_id := "class:fighter"
    hit_die := .str "1d10"
    primary_abilities := .arr [.str "STR"]
    edition := "5e-2014"
    license := "CC-BY-4.0"
    features_by_level := [⟨1, [secondWindSpec]⟩] }

/-- C1. Running `upsert_classes_and_features` twice in immediate
succession (same validated document set, same `iso_now()` timestamp)
leaves the store in the same observable state as running it once: the
class and feature collections are equal document-for-document, counts
agree, and the per-collection index sets agree. The starting store only
needs the MongoDB invariant that no collection carries two indexes with
the same key pattern. -/
theorem c1_upsert_idempotent (docs : List ClassDoc) (t : String) (st : Store)
    (hwc : wfIndexKeys st.classIndexes) (hwf : wfIndexKeys st.featureIndexes) :
    (upsertCounts docs t (upsert_classes_and_features docs t st)
        = upsertCounts docs t st)
    ∧ (∀ vs, findK ["srd_id"] vs
          (upsert_classes_and_features docs t (upsert_classes_and_features docs t st)).classes
        = findK ["srd_id"] vs (upsert_classes_and_features docs t st).classes)
    ∧ (∀ vs, findK featKeyFields vs
          (upsert_classes_and_features docs t (upsert_classes_and_features docs t st)).features
        = findK featKeyFields vs (upsert_classes_and_features docs t st).features)
    ∧ (∀ ix, ix ∈ (upsert_classes_and_features docs t
            (upsert_classes_and_features docs t st)).classIndexes
        ↔ ix ∈ (upsert_classes_and_features docs t st).classIndexes)
    ∧ (∀ ix, ix ∈ (upsert_classes_and_features docs t
            (upsert_classes_and_features docs t st)).featureIndexes
        ↔ ix ∈ (upsert_classes_and_features docs t st).featureIndexes) := by
  have hcw := classOps_wf docs t
  have hfw := featOps_wf docs t
  have hclasses2 :
      (upsert_classes_and_features docs t (upsert_classes_and_features docs t st)).classes
        = runOps (runOps st.classes (classOps docs t)) (classOps docs t) := rfl
  have hfeat1 : (upsert_classes_and_features docs t st).features
      = runOps (st.features.filter hasClassSrdId) (featOps docs t) := rfl
  have hfeat2 :
      (upsert_classes_and_features docs t (upsert_classes_and_features docs t st)).features
        = runOps (upsert_classes_and_features docs t st).features (featOps docs t) := by
    show runOps ((upsert_classes_and_features docs t st).features.filter hasClassSrdId) _
        = _
    rw [features_run_filter_fk docs t st]
  refine ⟨?_, ?_, ?_, ?_, ?_⟩
  · unfold upsertCounts
    have h1 : (upsert_classes_and_features docs t
        (upsert_classes_and_features docs t st)).classes.length
        = (upsert_classes_and_features docs t st).classes.length := by
      rw [hclasses2]
      exact length_runOps_all_present ["srd_id"] (classOps docs t) _ hcw
        (fun o ho => findK_runOps_isSome ["srd_id"] (classOps docs t) st.classes hcw o ho)
    have h2 : (upsert_classes_and_features docs t
        (upsert_classes_and_features docs t st)).features.length
        = (upsert_classes_and_features docs t st).features.length := by
      rw [hfeat2, hfeat1]
      exact length_runOps_all_present featKeyFields (featOps docs t) _ hfw
        (fun o ho => findK_runOps_isSome featKeyFields (featOps docs t) _ hfw o ho)
    rw [h1, h2]
  · intro vs
    rw [hclasses2]
    exact findK_runOps_idem ["srd_id"] vs (classOps docs t) st.classes hcw
  · intro vs
    rw [hfeat2, hfeat1]
    exact findK_runOps_idem featKeyFields vs (featOps docs t) _ hfw
  · exact reconcileClassIndexes_idem st.classIndexes hwc
  · exact reconcileFeatureIndexes_idem st.featureIndexes hwf

/-- Witness for C1 at a concrete input: one class document ingested into
an empty store at a fixed timestamp. -/
theorem c1_upsert_idempotent_witness :
    wfIndexKeys (Store.mk [] [] [] []).classIndexes
    ∧ (upsertCounts [fighterDoc] "2026-01-01T00:00:00Z"
        (upsert_classes_and_features [fighterDoc] "2026-01-01T00:00:00Z"
          (Store.mk [] [] [] []))
      = upsertCounts [fighterDoc] "2026-01-01T00:00:00Z" (Store.mk [] [] [] [])) := by
  have hw : wfIndexKeys ([] : List IndexSpec) := List.Pairwise.nil
  exact ⟨hw,
    (c1_upsert_idempotent [fighterDoc] "2026-01-01T00:00:00Z"
      (Store.mk [] [] [] []) hw hw).1⟩

/-! ## A stable sort (Python `sorted`, Mongo `.sort`)

Python `sorted` is a stable comparison sort; for a total preorder any
stable sort computes the same list, so we embed it as a structural
insertion sort (an element is placed before the first element it
compares `le` to), which the kernel can evaluate on concrete inputs. -/

def insortBy (le : α → α → Bool) (x : α) : List α → List α
  | [] => [x]
  | y :: ys => if le x y then x :: y :: ys else y :: insortBy le x ys

def sortBy (le : α → α → Bool) (l : List α) : List α :=
  l.foldr (insortBy le) []

theorem insortBy_perm (le : α → α → Bool) (x : α) (l : List α) :
    (insortBy le x l).Perm (x :: l) := by
  induction l with
  | nil => exact List.Perm.refl _
  | cons y ys ih =>
    by_cases h : le x y
    · simp [insortBy, h]
    · simp only [insortBy, h, if_false, ite_false]
      exact ((ih.cons y).trans (List.Perm.swap x y ys))

theorem sortBy_perm (le : α → α → Bool) (l : List α) :
    (sortBy le l).Perm l := by
  induction l with
  | nil => exact List.Perm.refl _
  | cons x xs ih =>
    exact (insortBy_perm le x (sortBy le xs)).trans (ih.cons x)

theorem mem_insortBy (le : α → α → Bool) (x : α) (l : List α) (z : α)
    (h : z ∈ insortBy le x l) : z = x ∨ z ∈ l :=
  List.mem_cons.mp ((insortBy_perm le x l).mem_iff.mp h)

theorem insortBy_sorted (le : α → α → Bool)
    (total : ∀ a b, le a b || le b a) (trans : ∀ a b c, le a b → le b c → le a c)
    (x : α) (l : List α) (hl : l.Pairwise (fun a b => le a b = true)) :
    (insortBy le x l).Pairwise (fun a b => le a b = true) := by
  induction l with
  | nil => simp [insortBy]
  | cons y ys ih =>
    obtain ⟨hy, hys⟩ := List.pairwise_cons.mp hl
    by_cases h : le x y
    · simp only [insortBy, h, if_true]
      rw [List.pairwise_cons]
      refine ⟨?_, hl⟩
      intro z hz
      rcases List.mem_cons.mp hz with h1 | h1
      · rw [h1]; exact h
      · exact trans x y z h (hy z h1)
    · simp only [insortBy, h, Bool.false_eq_true, if_false, ite_false]
      rw [List.pairwise_cons]
      refine ⟨?_, ih hys⟩
      intro z hz
      rcases mem_insortBy le x ys z hz with h1 | h1
      · rw [h1]
        have := total x y
        cases hxy : le x y with
        | true => exact absurd hxy h
        | false => rw [hxy] at this; simpa using this
      · exact hy z h1

theorem sortBy_sorted (le : α → α → Bool)
    (total : ∀ a b, le a b || le b a) (trans : ∀ a b c, le a b → le b c → le a c)
    (l : List α) : (sortBy le l).Pairwise (fun a b => le a b = true) := by
  induction l with
  | nil => simp [sortBy]
  | cons x xs ih => exact insortBy_sorted le total trans x (sortBy le xs) ih

/-! ## Schema validation (`validate_classes`, lines 112-128)

`jsonschema.Draft7Validator.iter_errors` and the schema file are
external to the ingest core (the spec treats the schema as an opaque
validation contract), so the error generator is a parameter. A
validation error carries the instance path `e.path` — a sequence of
object keys (strings) and array indices (integers) — and a message.
`sorted(..., key=lambda e: e.path)` compares paths lexicographically.
Python cannot compare an `int` path element with a `str` one, but for
errors over one concrete instance two paths that first differ at some
depth address children of the same container, which is either an object
(all keys) or an array (all indices), so the mixed case never arises;
the embedding orders indices before keys to make the order total. -/

inductive PathElem where
  | key : String → PathElem
  | idx : Nat → PathElem
deriving DecidableEq, Repr

def peLt : PathElem → PathElem → Bool
  | .key a, .key b => decide (a < b)
  | .idx a, .idx b => decide (a < b)
  | .idx _, .key _ => true
  | .key _, .idx _ => false

/-- Lexicographic comparison of instance paths (Python sequence
comparison, as `sorted(..., key=lambda e: e.path)` uses). -/
def pathLe : List PathElem → List PathElem → Bool
  | [], _ => true
  | _ :: _, [] => false
  | a :: as, b :: bs =>
    if peLt a b then true else if peLt b a then false else pathLe as bs

theorem peLt_connex (a b : PathElem) :
    peLt a b = true ∨ peLt b a = true ∨ a = b := by
  cases a with
  | key s =>
    cases b with
    | key t =>
      rcases lt_trichotomy s t with h | h | h
      · exact Or.inl (by simp [peLt, h])
      · exact Or.inr (Or.inr (by rw [h]))
      · exact Or.inr (Or.inl (by simp [peLt, h]))
    | idx n => exact Or.inr (Or.inl rfl)
  | idx m =>
    cases b with
    | key t => exact Or.inl rfl
    | idx n =>
      rcases lt_trichotomy m n with h | h | h
      · exact Or.inl (by simp [peLt, h])
      · exact Or.inr (Or.inr (by rw [h]))
      · exact Or.inr (Or.inl (by simp [peLt, h]))

theorem peLt_trans (a b c : PathElem) (h1 : peLt a b = true) (h2 : peLt b c = true) :
    peLt a c = true := by
  cases a with
  | key sa =>
    cases b with
    | key sb =>
      cases c with
      | key sc =>
        simp only [peLt, decide_eq_true_eq] at *
        exact lt_trans h1 h2
      | idx => cases h2
    | idx => cases h1
  | idx na =>
    cases b with
    | key sb =>
      cases c with
      | key sc => rfl
      | idx => cases h2
    | idx nb =>
      cases c with
      | key sc => rfl
      | idx nc =>
        simp only [peLt, decide_eq_true_eq] at *
        exact lt_trans h1 h2

theorem peLt_asymm (a b : PathElem) (h1 : peLt a b = true) (h2 : peLt b a = true) :
    False := by
  cases a with
  | key s =>
    cases b with
    | key t =>
      simp only [peLt, decide_eq_true_eq] at h1 h2
      exact (lt_asymm h1) h2
    | idx n => cases h1
  | idx m =>
    cases b with
    | key t => cases h2
    | idx n =>
      simp only [peLt, decide_eq_true_eq] at h1 h2
      exact (lt_asymm h1) h2

theorem pathLe_total (a b : List PathElem) : pathLe a b || pathLe b a := by
  induction a generalizing b with
  | nil => simp [pathLe]
  | cons x as ih =>
    cases b with
    | nil => simp [pathLe]
    | cons y bs =>
      by_cases h1 : peLt x y
      · simp [pathLe, h1]
      · by_cases h2 : peLt y x
        · simp [pathLe, h1, h2]
        · simp only [pathLe, h1, h2, Bool.false_eq_true, if_false, ite_false]
          exact ih bs

theorem pathLe_trans (a b c : List PathElem)
    (h1 : pathLe a b = true) (h2 : pathLe b c = true) : pathLe a c = true := by
  induction a generalizing b c with
  | nil => rfl
  | cons x as ih =>
    cases b with
    | nil => cases h1
    | cons y bs =>
      cases c with
      | nil => cases h2
      | cons z cs =>
        by_cases hxy : peLt x y
        · -- x < y: combine with the y-z comparison
          rcases peLt_connex y z with hyz | hzy | hyz
          · have := peLt_trans x y z hxy hyz
            simp [pathLe, this]
          · -- z < y contradicts pathLe (y :: bs) (z :: cs)
            have hyz' : peLt y z = false := by
              cases hq : peLt y z with
              | false => rfl
              | true => exact (peLt_asymm y z hq hzy).elim
            rw [show pathLe (y :: bs) (z :: cs)
                = false by simp [pathLe, hyz', hzy]] at h2
            cases h2
          · subst hyz
            simp [pathLe, hxy]
        · by_cases hyx : peLt y x
          · rw [show pathLe (x :: as) (y :: bs)
                = false by simp [pathLe, hxy, hyx]] at h1
            cases h1
          · have hxy' : x = y := by
              rcases peLt_connex x y with hc | hc | hc
              · exact absurd hc hxy
              · exact absurd hc hyx
              · exact hc
            subst hxy'
            simp only [pathLe, hxy, Bool.false_eq_true, if_false, ite_false] at h1 ⊢
            by_cases hxz : peLt x z
            · simp [hxz]
            · by_cases hzx : peLt z x
              · -- z < x contradicts pathLe (x :: bs) (z :: cs)
                rw [show pathLe (x :: bs) (z :: cs)
                    = false by simp [pathLe, hxz, hzx]] at h2
                cases h2
              · have hxz' : x = z := by
                  rcases peLt_connex x z with hc | hc | hc
                  · exact absurd hc hxz
                  · exact absurd hc hzx
                  · exact hc
                subst hxz'
                simp only [pathLe, hxz, Bool.false_eq_true, if_false, ite_false] at h2 ⊢
                exact ih bs cs h1 h2

/-- One `jsonschema` validation error: instance path and message. -/
structure VErr where
  path : List PathElem
  message : String
deriving DecidableEq, Repr

/-- `sorted(validator.iter_errors(data), key=lambda e: e.path)`
(line 117): the per-document error list ordered by instance path. -/
def sortErrs (errs : List VErr) : List VErr :=
  sortBy (fun a b => pathLe a.path b.path) errs

def pathElemStr : PathElem → String
  | .key s => s
  | .idx n => toString n

/-- `f"{path.name}: {list(e.path)} -> {e.message}"` (line 120). -/
def errLine (fname : String) (e : VErr) : String :=
  fname ++ ": [" ++ String.intercalate ", " (e.path.map pathElemStr)
    ++ "] -> " ++ e.message

/-- `validate_classes` (lines 112-128): collect every file's errors
(each file's errors sorted by path); if any exist, report them all and
raise `SystemExit(2)`; otherwise return the validated items. The error
generator `ie` stands for `Draft7Validator(SCHEMA).iter_errors`. -/
def validate_classes (ie : ClassDoc → List VErr)
    (items : List (String × ClassDoc)) :
    Except (List String) (List (String × ClassDoc)) :=
  let errors := items.flatMap (fun pd => (sortErrs (ie pd.2)).map (errLine pd.1))
  if errors.isEmpty then .ok items else .error errors

/-- `main` (lines 306-335), up to persistence: empty corpus exits 1
before validation; any validation error exits 2 before the store is
touched; otherwise the engine runs. Result: optional exit code (`none`
means success), the store afterwards, and the printed error report. -/
def ingest_main (ie : ClassDoc → List VErr) (items : List (String × ClassDoc))
    (t : String) (st : Store) : Option Nat × Store × List String :=
  if items.isEmpty then (some 1, st, [])
  else
    match validate_classes ie items with
    | .error errs => (some 2, st, errs)
    | .ok valid => (none, upsert_classes_and_features (valid.map Prod.snd) t st, [])

/-! ## The read API (app/routes.py, scripts/read_helpers.py) -/

/-- The three environment-variable aliases `routes.py` recognizes. -/
structure EnvCfg where
  mongodb_uri : Option String
  mongodb_url : Option String
  mongo_uri : Option String

/-- Python truthiness of `os.getenv(...)`: set and non-empty. -/
def truthy : Option String → Bool
  | some s => !s.isEmpty
  | none => false

/-- `_mongo_configured` (routes.py lines 37-43):
`bool(os.getenv("MONGODB_URI") or os.getenv("MONGODB_URL") or
os.getenv("MONGO_URI"))`. -/
def mongo_configured (env : EnvCfg) : Bool :=
  truthy env.mongodb_uri || truthy env.mongodb_url || truthy env.mongo_uri

/-- A cache file on disk: parses to a value, or holds invalid JSON. -/
inductive CacheFile where
  | parsed : Val → CacheFile
  | malformed : CacheFile

/-- The two flat cache artifacts the API serves. -/
structure CacheFS where
  metaJson : Option CacheFile
  classesMinJson : Option CacheFile

structure HttpResponse where
  status : Nat
  body : Option Val
deriving DecidableEq, Repr

/-- `_read_json` (routes.py lines 23-29) together with FastAPI's
serialization: 404 if the file is absent, 500 if it does not parse,
200 with its contents otherwise. -/
def read_json : Option CacheFile → HttpResponse
  | none => ⟨404, none⟩
  | some .malformed => ⟨500, none⟩
  | some (.parsed v) => ⟨200, some v⟩

/-- `GET /meta` (routes.py lines 46-48). -/
def get_meta (fs : CacheFS) : HttpResponse :=
  read_json fs.metaJson

/-- `GET /classes` (routes.py lines 51-53). -/
def list_classes_route (fs : CacheFS) : HttpResponse :=
  read_json fs.classesMinJson

/-- Python `str.strip()`: drop whitespace from both ends. -/
def pyStrip (s : String) : String :=
  ⟨((s.data.dropWhile Char.isWhitespace).reverse.dropWhile Char.isWhitespace).reverse⟩

def titleGo : Bool → List Char → List Char
  | _, [] => []
  | prevAlpha, c :: rest =>
    if c.isAlpha then
      (if prevAlpha then c.toLower else c.toUpper) :: titleGo true rest
    else c :: titleGo false rest

/-- Python `str.title()` on ASCII: uppercase each letter that starts a
run of letters, lowercase the rest. -/
def pyTitle (s : String) : String :=
  ⟨titleGo false s.data⟩

/-- The Mongo find filter of `features_by_class_level`
(read_helpers.py lines 31-34): `{"class_name": …, "level": …}`. -/
def featQueryMatch (class_name : String) (level : Nat) (d : Doc) : Bool :=
  decide (getField d "class_name" = some (.str class_name))
    && decide (getField d "level" = some (.num level))

/-- The projection `{"_id": 0, "name": 1, "slug": 1}`: keep only the
named fields (when present). -/
def projNameSlug (d : Doc) : Doc :=
  (match getField d "name" with
   | some v => [("name", v)]
   | none => []) ++
  (match getField d "slug" with
   | some v => [("slug", v)]
   | none => [])

/-- The `name` sort key of a document; documents the pipeline writes
always carry a string name (a missing or non-string name sorts first,
approximating BSON order). -/
def nameKeyOf (d : Doc) : String :=
  match getField d "name" with
  | some (.str s) => s
  | _ => ""

/-- Ascending sort `.sort("name", 1)`. -/
def docNameLe (a b : Doc) : Bool :=
  decide (nameKeyOf a ≤ nameKeyOf b)

theorem docNameLe_total (a b : Doc) : docNameLe a b || docNameLe b a := by
  unfold docNameLe
  rcases le_total (nameKeyOf a) (nameKeyOf b) with h | h <;> simp [h]

theorem docNameLe_trans (a b c : Doc)
    (h1 : docNameLe a b = true) (h2 : docNameLe b c = true) : docNameLe a c = true := by
  unfold docNameLe at *
  rw [decide_eq_true_eq] at *
  exact le_trans h1 h2

/-- `features_by_class_level` (read_helpers.py lines 28-35): filter by
class name and level, project `{name, slug}`, sort ascending by name.
(The projection keeps the `name` field, so sorting the projections by
name equals projecting the sorted cursor.) -/
def features_by_class_level (store : List Doc) (class_name : String) (level : Nat) :
    List Doc :=
  sortBy docNameLe ((store.filter (featQueryMatch class_name level)).map projNameSlug)

/-- `feature_by_slug` (read_helpers.py lines 38-42): `find_one` by slug
without `_id`, or `None`. -/
def feature_by_slug (store : List Doc) (slug : String) : Option Doc :=
  store.find? (fun d => decide (getField d "slug" = some (.str slug)))

/-- `GET /classes/{name}/features?level=…` (routes.py lines 62-80):
503 when Mongo is not configured; otherwise the handler returns the
helper's list (FastAPI serializes it with status 200). The
`except KeyError` → 404 branch is dead code: the helper returns a
(possibly empty) list and never raises `KeyError`. -/
def get_class_features (env : EnvCfg) (store : List Doc) (name : String)
    (level : Nat) : HttpResponse :=
  if !mongo_configured env then ⟨503, none⟩
  else
    ⟨200, some (.arr ((features_by_class_level store (pyTitle (pyStrip name)) level).map
        Val.obj))⟩

/-- `GET /features/{slug}` (routes.py lines 83-101): 503 when Mongo is
not configured; 404 when the helper returns a falsy result (`None` or
an empty document); otherwise 200 with the document. -/
def get_feature (env : EnvCfg) (store : List Doc) (slug : String) : HttpResponse :=
  if !mongo_configured env then ⟨503, none⟩
  else
    match feature_by_slug store slug with
    | none => ⟨404, none⟩
    | some d => if d.isEmpty then ⟨404, none⟩ else ⟨200, some (.obj d)⟩

/-- C5. `slugify` computes exactly the algorithm the spec states —
lowercase, replace every maximal run of characters outside `[a-z0-9]`
with a single hyphen, strip leading/trailing hyphens (the code's extra
hyphen-collapsing pass is a no-op) — with the two specified example
values. Purity/determinism is definitional: `slugify` is a function of
its argument with no other state. -/
theorem c5_slugify_algorithm :
    (∀ s : String, slugify s = slugify_spec_alg s)
    ∧ slugify "Second Wind" = "second-wind"
    ∧ slugify "Rage (2/long rest)" = "rage-2-long-rest" := by
  refine ⟨?_, by decide, by decide⟩
  intro s
  unfold slugify slugify_spec_alg
  rw [subDashes_subRuns]

/-- C10. The per-document validation error report is deterministically
ordered: `validate_classes` sorts each document's errors by instance
path (`sortErrs`), so the reported list is sorted under the path order
and is a permutation of the generated errors; repeated validation of
the same input is the same pure computation. -/
theorem c10_validation_errors_sorted (ie : ClassDoc → List VErr) (d : ClassDoc) :
    (sortErrs (ie d)).Pairwise (fun a b => pathLe a.path b.path = true)
    ∧ (sortErrs (ie d)).Perm (ie d) := by
  constructor
  · exact sortBy_sorted _ (fun a b => pathLe_total a.path b.path)
      (fun a b c => pathLe_trans a.path b.path c.path) (ie d)
  · exact sortBy_perm _ (ie d)

/-- C7. After any ingest run, no document in the features collection
lacks the `class_srd_id` foreign key: the reconciliation pass deletes
every pre-existing document missing it, every document the run writes
contains it, and `$set` updates never remove it. -/
theorem c7_features_have_foreign_key (docs : List ClassDoc) (t : String) (st : Store) :
    ∀ d ∈ (upsert_classes_and_features docs t st).features, hasClassSrdId d = true :=
  features_run_fk docs t st

/-- Witness for C7: ingesting one class into a store holding one legacy
feature document without the foreign key; the written feature document
is in the result and carries the key (and, by the theorem, everything
in the result does). -/
theorem c7_features_have_foreign_key_witness :
    (featDoc fighterDoc 1 secondWindSpec (featSlug "Fighter" "Second Wind" 1) t0
        ∈ (upsert_classes_and_features [fighterDoc] t0
            (Store.mk [] [[("legacy", Val.str "x")]] [] [])).features)
    ∧ hasClassSrdId
        (featDoc fighterDoc 1 secondWindSpec (featSlug "Fighter" "Second Wind" 1) t0)
      = true := by
  have hm : featDoc fighterDoc 1 secondWindSpec (featSlug "Fighter" "Second Wind" 1) t0
      ∈ (upsert_classes_and_features [fighterDoc] t0
          (Store.mk [] [[("legacy", Val.str "x")]] [] [])).features := by decide
  exact ⟨hm, c7_features_have_foreign_key [fighterDoc] t0
    (Store.mk [] [[("legacy", Val.str "x")]] [] []) _ hm⟩

/-- A previously stored class record carrying a field the new source
document does not have. -/
def staleFighterRec : Doc :=
  [("srd_id", Val.str "class:fighter"), ("legacy_note", Val.str "keep-me")]

/-- C2. The claim states full-document overwrite on re-ingest, and the
engine's own docstring says "classes: replace by srd_id" — but the code
issues `UpdateOne(filter, {"$set": c})`, which is a field-level merge:
evaluating the engine on a stored record with a field `legacy_note`
absent from the new source document shows the field survives the
upsert alongside the new fields. -/
theorem c2_set_merge_keeps_stale_field :
    ((findK ["srd_id"] [.str "class:fighter"]
        (upsert_classes_and_features [fighterDoc] t0
          (Store.mk [staleFighterRec] [] [] [])).classes).bind
      (fun d => getField d "legacy_note")) = some (.str "keep-me")
    ∧ ((findK ["srd_id"] [.str "class:fighter"]
        (upsert_classes_and_features [fighterDoc] t0
          (Store.mk [staleFighterRec] [] [] [])).classes).bind
      (fun d => getField d "name")) = some (.str "Fighter") := by decide

/-- A stored class record whose key is not derived from the ingested
document set. -/
def ghostClassRec : Doc :=
  [("srd_id", Val.str "class:ghost"), ("name", Val.str "Ghost")]

/-- C3 counterexample: starting from a store holding a class record
whose `srd_id` is not among the ingested documents, the record is still
in the classes collection after the run (the reconciliation pass only
deletes feature documents missing `class_srd_id`; nothing deletes stale
class records), so the store does not contain exactly the derived
record set. -/
theorem c3_stale_class_record_persists :
    ghostClassRec ∈ (upsert_classes_and_features [fighterDoc] t0
        (Store.mk [ghostClassRec] [] [] [])).classes
    ∧ (∀ c ∈ [fighterDoc], c.srd_id ≠ "class:ghost")
    ∧ (upsert_classes_and_features [fighterDoc] t0
        (Store.mk [ghostClassRec] [] [] [])).classes.length = 2
    ∧ [fighterDoc].length = 1 := by decide

/-- C3 (amended). After `upsert_classes_and_features` completes on D
the store contains at least the records derived from D — the key of
every derived class record and of every derived feature record is
present — and every feature document lacking `class_srd_id` is gone;
but the store converges to a superset of the derived set, not exactly
to it: any pre-existing class record matching no derived key persists
(and likewise keyed feature records, which upserts never delete). -/
theorem c3_store_contains_derived_set (docs : List ClassDoc) (t : String) (st : Store) :
    (∀ o ∈ classOps docs t,
        (findK ["srd_id"] o.keyVals
          (upsert_classes_and_features docs t st).classes).isSome)
    ∧ (∀ o ∈ featOps docs t,
        (findK featKeyFields o.keyVals
          (upsert_classes_and_features docs t st).features).isSome)
    ∧ (∀ d ∈ (upsert_classes_and_features docs t st).features, hasClassSrdId d = true)
    ∧ (∀ d ∈ st.classes, (∀ o ∈ classOps docs t, ¬ kMatch o d) →
        d ∈ (upsert_classes_and_features docs t st).classes) := by
  refine ⟨?_, ?_, features_run_fk docs t st, ?_⟩
  · intro o ho
    exact findK_runOps_isSome ["srd_id"] (classOps docs t) st.classes
      (classOps_wf docs t) o ho
  · intro o ho
    exact findK_runOps_isSome featKeyFields (featOps docs t)
      (st.features.filter hasClassSrdId) (featOps_wf docs t) o ho
  · intro d hd h
    exact mem_runOps_of_unmatched (classOps docs t) st.classes d hd h

/-- Witness for the amended C3 at a concrete input: the ghost record
matches no derived key and persists; the derived class key is
present. -/
theorem c3_store_contains_derived_set_witness :
    ghostClassRec ∈ (upsert_classes_and_features [fighterDoc] t0
        (Store.mk [ghostClassRec] [] [] [])).classes
    ∧ (∀ o ∈ classOps [fighterDoc] t0,
        (findK ["srd_id"] o.keyVals
          (upsert_classes_and_features [fighterDoc] t0
            (Store.mk [ghostClassRec] [] [] [])).classes).isSome) := by
  constructor
  · exact (c3_store_contains_derived_set [fighterDoc] t0
      (Store.mk [ghostClassRec] [] [] [])).2.2.2 ghostClassRec (by decide) (by decide)
  · exact (c3_store_contains_derived_set [fighterDoc] t0
      (Store.mk [ghostClassRec] [] [] [])).1

/-- C4. If any document in the batch fails schema validation, the run
terminates with exit code 2 before any persistence: the store in the
result is the input store untouched, the report concatenates every
file's (path-sorted) errors, and the validation-failure exit code 2 is
nonzero and distinct from the empty-corpus exit code 1. -/
theorem c4_validation_all_or_nothing (ie : ClassDoc → List VErr)
    (items : List (String × ClassDoc)) (t : String) (st : Store) :
    (items ≠ [] → (∃ pd ∈ items, ie pd.2 ≠ []) →
      ingest_main ie items t st
        = (some 2, st, items.flatMap (fun pd => (sortErrs (ie pd.2)).map (errLine pd.1))))
    ∧ ingest_main ie [] t st = (some 1, st, [])
    ∧ ((2 : Nat) ≠ 1 ∧ (2 : Nat) ≠ 0 ∧ (1 : Nat) ≠ 0) := by
  refine ⟨?_, rfl, by omega, by omega, by omega⟩
  intro hne hex
  have hemp : items.isEmpty = false := by
    cases items with
    | nil => exact absurd rfl hne
    | cons a l => rfl
  have herr : (items.flatMap
      (fun pd => (sortErrs (ie pd.2)).map (errLine pd.1))).isEmpty = false := by
    obtain ⟨pd, hpd, hie⟩ := hex
    obtain ⟨e, he⟩ := List.exists_mem_of_ne_nil (ie pd.2) hie
    have he2 : e ∈ sortErrs (ie pd.2) := by
      unfold sortErrs
      exact (sortBy_perm (fun a b => pathLe a.path b.path) (ie pd.2)).mem_iff.mpr he
    have hmem : errLine pd.1 e ∈ items.flatMap
        (fun pd => (sortErrs (ie pd.2)).map (errLine pd.1)) :=
      List.mem_flatMap.mpr ⟨pd, hpd, List.mem_map.mpr ⟨e, he2, rfl⟩⟩
    cases hfl : items.flatMap (fun pd => (sortErrs (ie pd.2)).map (errLine pd.1)) with
    | nil => rw [hfl] at hmem; cases hmem
    | cons a l => rfl
  unfold ingest_main validate_classes
  rw [hemp]
  simp only [Bool.false_eq_true, if_false, ite_false, herr]

/-- A document the witness validator rejects. -/
def badClassDoc : ClassDoc := { fighterDoc with name := "Bad" }

/-- The witness validator: one error on documents named "Bad". -/
def ieBadName : ClassDoc → List VErr :=
  fun c => if c.name = "Bad" then [⟨[.key "name"], "bad name"⟩] else []

/-- Witness for C4: one invalid file aborts the run with exit code 2,
the store untouched, and the file's error reported. -/
theorem c4_validation_all_or_nothing_witness :
    ([("bad.json", badClassDoc)] ≠ ([] : List (String × ClassDoc)))
    ∧ (∃ pd ∈ [("bad.json", badClassDoc)], ieBadName pd.2 ≠ [])
    ∧ ingest_main ieBadName [("bad.json", badClassDoc)] t0 (Store.mk [] [] [] [])
      = (some 2, Store.mk [] [] [] [],
          [("bad.json", badClassDoc)].flatMap
            (fun pd => (sortErrs (ieBadName pd.2)).map (errLine pd.1))) := by
  have h1 : [("bad.json", badClassDoc)] ≠ ([] : List (String × ClassDoc)) := by decide
  have h2 : ∃ pd ∈ [("bad.json", badClassDoc)], ieBadName pd.2 ≠ [] := by decide
  exact ⟨h1, h2,
    (c4_validation_all_or_nothing ieBadName [("bad.json", badClassDoc)] t0
      (Store.mk [] [] [] [])).1 h1 h2⟩

/-- C6. Every feature upsert the engine builds has
`slug = slugify(class_name) + "-" + slugify(feature_name) + "-l" + level`
both in its written document and in its filter, is keyed by the
composite triple `(class_srd_id, level, slug)`; upserts preserve the
unique-index invariant (at most one document per triple, so no two
documents ever coexist under a triple), and of two upserts on the same
triple the second lands last — the surviving document is the second's
`$set` applied over the first's. -/
theorem c6_feature_slug_and_composite_key (docs : List ClassDoc) (t : String) :
    (∀ o ∈ featOps docs t, ∃ c ∈ docs, ∃ lb ∈ c.features_by_level, ∃ f ∈ lb.features,
        o.keyFields = featKeyFields
        ∧ o.keyVals = [.str c.srd_id, .num lb.level,
            .str (slugify c.name ++ "-" ++ slugify f.name ++ "-l" ++ toString lb.level)]
        ∧ getField o.setDoc "slug"
          = some (.str (slugify c.name ++ "-" ++ slugify f.name
              ++ "-l" ++ toString lb.level)))
    ∧ (∀ st : Store, uniqueKeys featKeyFields st.features
        → uniqueKeys featKeyFields (upsert_classes_and_features docs t st).features)
    ∧ (∀ (s : List Doc) (o1 o2 : UOp), o1 ∈ featOps docs t → o2 ∈ featOps docs t →
        o1.keyVals = o2.keyVals →
        findK featKeyFields o2.keyVals (applyOp (applyOp s o1) o2)
          = some (setFields o2.setDoc
              (match findK featKeyFields o1.keyVals s with
               | some d => setFields o1.setDoc d
               | none => insertDoc o1))) := by
  refine ⟨?_, ?_, ?_⟩
  · intro o ho
    obtain ⟨c, hc, ho2⟩ := List.mem_flatMap.mp ho
    obtain ⟨lb, hlb, ho3⟩ := List.mem_flatMap.mp ho2
    obtain ⟨f, hf, rfl⟩ := List.mem_map.mp ho3
    refine ⟨c, hc, lb, hlb, f, hf, rfl, rfl, ?_⟩
    show getField (featDoc c lb.level f (featSlug c.name f.name lb.level) t) "slug" = _
    simp [getField, featDoc, List.lookup, featSlug]
  · intro st hu
    have hfil : uniqueKeys featKeyFields (st.features.filter hasClassSrdId) := by
      intro vs
      have hsub := List.filter_sublist (p := hasClassSrdId) st.features
      have := hsub.countP_le
        (fun d => decide (keyProj featKeyFields d = vs.map some))
      exact le_trans this (hu vs)
    exact uniqueKeys_runOps featKeyFields (featOps docs t) _ (featOps_wf docs t) hfil
  · intro s o1 o2 h1 h2 hv
    obtain ⟨hf1, hs1⟩ := featOps_wf docs t o1 h1
    obtain ⟨hf2, hs2⟩ := featOps_wf docs t o2 h2
    have e2 := findK_applyOp_eq o2 (applyOp s o1) hs2
    rw [hf2] at e2
    have e1 := findK_applyOp_eq o1 s hs1
    rw [hf1] at e1
    have e3 : findK featKeyFields o2.keyVals (applyOp s o1)
        = some (match findK featKeyFields o1.keyVals s with
                | some d => setFields o1.setDoc d
                | none => insertDoc o1) := by
      rw [← hv]; exact e1
    rw [e2, e3]

/-- The single feature upsert derived from `fighterDoc`. -/
def fighterFeatOp : UOp :=
  ⟨featKeyFields, [.str "class:fighter", .num 1, .str "fighter-second-wind-l1"],
   featDoc fighterDoc 1 secondWindSpec "fighter-second-wind-l1" t0⟩

/-- Witness for C6 at a concrete input: the fighter feature op is in the
batch; the empty store satisfies the uniqueness invariant and keeps it
through a run; applying the same-key upsert twice to an empty
collection leaves the second `$set` over the first's insert. -/
theorem c6_feature_slug_and_composite_key_witness :
    fighterFeatOp ∈ featOps [fighterDoc] t0
    ∧ uniqueKeys featKeyFields
        ((upsert_classes_and_features [fighterDoc] t0 (Store.mk [] [] [] [])).features)
    ∧ findK featKeyFields fighterFeatOp.keyVals
        (applyOp (applyOp [] fighterFeatOp) fighterFeatOp)
      = some (setFields fighterFeatOp.setDoc
          (match findK featKeyFields fighterFeatOp.keyVals ([] : List Doc) with
           | some d => setFields fighterFeatOp.setDoc d
           | none => insertDoc fighterFeatOp)) := by
  have hm : fighterFeatOp ∈ featOps [fighterDoc] t0 := by decide
  have hu : uniqueKeys featKeyFields (Store.mk [] [] [] []).features := by
    intro vs; simp [keyCount]
  exact ⟨hm,
    (c6_feature_slug_and_composite_key [fighterDoc] t0).2.1 (Store.mk [] [] [] []) hu,
    (c6_feature_slug_and_composite_key [fighterDoc] t0).2.2 [] fighterFeatOp
      fighterFeatOp hm hm rfl⟩

/-- C8. With no store-connectivity environment variable set, the two
cache-backed endpoints serve their cache files with status 200 (when
the files exist and parse), while both feature endpoints answer 503 for
every possible store state — they never consult the store. -/
theorem c8_degraded_mode (env : EnvCfg) (fs : CacheFS)
    (h1 : env.mongodb_uri = none) (h2 : env.mongodb_url = none)
    (h3 : env.mongo_uri = none) :
    (∀ v, fs.metaJson = some (.parsed v) → get_meta fs = ⟨200, some v⟩)
    ∧ (∀ v, fs.classesMinJson = some (.parsed v) → list_classes_route fs = ⟨200, some v⟩)
    ∧ (∀ store name level, get_class_features env store name level = ⟨503, none⟩)
    ∧ (∀ store slug, get_feature env store slug = ⟨503, none⟩) := by
  have hc : mongo_configured env = false := by
    simp [mongo_configured, truthy, h1, h2, h3]
  refine ⟨?_, ?_, ?_, ?_⟩
  · intro v hv; simp [get_meta, hv, read_json]
  · intro v hv; simp [list_classes_route, hv, read_json]
  · intro store name level; simp [get_class_features, hc]
  · intro store slug; simp [get_feature, hc]

/-- An environment with every store-connectivity alias unset. -/
def envUnset : EnvCfg := ⟨none, none, none⟩

/-- A cache state whose two files exist and parse. -/
def fsOk : CacheFS := ⟨some (.parsed (.obj [("edition", .str "5e-2014")])),
  some (.parsed (.arr []))⟩

/-- Witness for C8 at a concrete input. -/
theorem c8_degraded_mode_witness :
    envUnset.mongodb_uri = none
    ∧ get_meta fsOk = ⟨200, some (.obj [("edition", .str "5e-2014")])⟩
    ∧ get_class_features envUnset [] "fighter" 3 = ⟨503, none⟩
    ∧ get_feature envUnset [] "any-slug" = ⟨503, none⟩ := by
  refine ⟨rfl, ?_, ?_, ?_⟩
  · exact (c8_degraded_mode envUnset fsOk rfl rfl rfl).1 _ rfl
  · exact (c8_degraded_mode envUnset fsOk rfl rfl rfl).2.2.1 [] "fighter" 3
  · exact (c8_degraded_mode envUnset fsOk rfl rfl rfl).2.2.2 [] "any-slug"

/-- An environment with `MONGODB_URI` set. -/
def envSet : EnvCfg := ⟨some "mongodb://localhost:27017/dnd_srd", none, none⟩

/-- C9 counterexample: with store connectivity configured and no
matching feature, the handler returns the helper's empty list with
status 200, not 404 — `features_by_class_level` returns `[]` and never
raises the `KeyError` the 404 branch catches. -/
theorem c9_empty_match_returns_200 :
    get_class_features envSet [] "fighter" 3 = ⟨200, some (.arr [])⟩
    ∧ (get_class_features envSet [] "fighter" 3).status ≠ 404 := by decide

/-- C9 (amended). With store connectivity configured and
`1 ≤ level ≤ 20`, `GET /classes/{name}/features?level=N` returns 200
with the `{name, slug}` projections of the features matching the
title-cased class name and level, sorted ascending by name; when
nothing matches the body is the empty array (200, not 404). -/
theorem c9_features_endpoint_projection (env : EnvCfg) (store : List Doc)
    (name : String) (level : Nat) (hcfg : mongo_configured env = true)
    (hlo : 1 ≤ level) (hhi : level ≤ 20) :
    get_class_features env store name level
      = ⟨200, some (.arr ((features_by_class_level store
          (pyTitle (pyStrip name)) level).map Val.obj))⟩
    ∧ (features_by_class_level store (pyTitle (pyStrip name)) level).Pairwise
        (fun a b => docNameLe a b = true)
    ∧ (store.filter (featQueryMatch (pyTitle (pyStrip name)) level) = [] →
        get_class_features env store name level = ⟨200, some (.arr [])⟩) := by
  refine ⟨?_, ?_, ?_⟩
  · simp [get_class_features, hcfg]
  · exact sortBy_sorted docNameLe docNameLe_total docNameLe_trans _
  · intro hf
    simp [get_class_features, hcfg, features_by_class_level, hf, sortBy]

/-- Witness for the amended C9 at a concrete input. -/
theorem c9_features_endpoint_projection_witness :
    mongo_configured envSet = true ∧ 1 ≤ 3 ∧ 3 ≤ 20
    ∧ get_class_features envSet [] "fighter" 3 = ⟨200, some (.arr [])⟩ := by
  refine ⟨by decide, by decide, by decide, ?_⟩
  exact (c9_features_endpoint_projection envSet [] "fighter" 3 (by decide)
    (by decide) (by decide)).2.2 rfl

end SrdMongo
